import Mathlib

/-!
CacheSim: a MESI cache-coherence simulator.

A shallow embedding of `src/cache_sim.c`.  The C type `byte` is `char`; bytes are only
ever copied and compared (never used in arithmetic other than `%` on an address), so a
byte is an `Int` here.  The cache array `c` and the global `memory` are the maps from an
index to the cell stored there; an index is computed exactly as the C pointer arithmetic
computes it.  One iteration of the `while` loop of `cpu_loop` is one atomic step,
`cpu_loop_body`.
-/

namespace CacheSim

/-- The struct `cache`: one cache line (tag, value, MESI state letter). -/
structure cache where
  address : Int
  value : Int
  state : Char
deriving DecidableEq, Repr

/-- The struct `decoded_inst`: `type` 0 is RD, 1 is WR. -/
structure decoded where
  type : Int
  address : Int
  value : Int
deriving DecidableEq, Repr

/-- The record printed by the `printf` of an instruction:
`Thread <thread_num>: RD|WR <address>: <value>`. -/
structure event where
  thread_num : Nat
  type : Int
  address : Int
  value : Int
deriving DecidableEq, Repr

/-- The local `cache_size` of `cpu_loop` (lines per thread). -/
def cache_size : Int := 2

/-- The local `memory_size` of `main`. -/
def memory_size : Int := 24

/-- The simulated store: the array `c` of all threads' lines and the global `memory`.
The source allocates `memory_size` cells for `memory`: a subscript outside
`[0, memory_size)` is out of bounds there, and the value this map gives for it stands for
nothing in the source (`memory_indices` lists the subscripts a step uses). -/
structure machine where
  c : Int → cache
  memory : Int → Int

/-- Assignment to one cell of an array. -/
def put {α : Type} (f : Int → α) (i : Int) (v : α) : Int → α :=
  fun j => if j = i then v else f j

/-- `int hash = inst.address % cache_size;` (C remainder, truncating). -/
def hash (inst : decoded) : Int := Int.tmod inst.address cache_size

/-- The index of `cacheline = c + thread_num * cache_size + hash` (and, for another
thread `i`, of `other_cacheline = c + i * cache_size + hash`). -/
def cacheline (thread_num : Nat) (inst : decoded) : Int :=
  (thread_num : Int) * cache_size + hash inst

/-- Lines 89-100: the cache miss handling (write back a Modified victim, reset the line). -/
def handle_miss (thread_num : Nat) (inst : decoded) (m : machine) : machine :=
  let p := cacheline thread_num inst
  if (m.c p).address ≠ inst.address then
    let mem := if (m.c p).state = 'M' then put m.memory (m.c p).address (m.c p).value
               else m.memory
    { c := put m.c p { address := inst.address, value := -1, state := 'I' }, memory := mem }
  else m

/-- Lines 122-137: one iteration `i` of the snoop loop of a Read in state I; the second
component is `found`. -/
def rd_snoop (thread_num : Nat) (inst : decoded) (acc : machine × Bool) (i : Nat) :
    machine × Bool :=
  if i ≠ thread_num then
    let p := cacheline thread_num inst
    let q := cacheline i inst
    if (acc.1.c q).state ≠ 'I' ∧ (acc.1.c q).address = inst.address then
      let m1 : machine :=
        if acc.2 = false then
          { c := put acc.1.c p
                   { address := inst.address, value := (acc.1.c q).value, state := 'S' },
            memory := put acc.1.memory inst.address (acc.1.c q).value }
        else acc.1
      let m2 : machine :=
        if (m1.c q).state = 'M' ∨ (m1.c q).state = 'E' then
          { m1 with c := put m1.c q { (m1.c q) with state := 'S' } }
        else m1
      (m2, true)
    else acc
  else acc

/-- Lines 106-148: the Read transition on the state of `cacheline` (M, E, S: hit). -/
def rd (num_threads thread_num : Nat) (inst : decoded) (m : machine) : machine :=
  let p := cacheline thread_num inst
  if (m.c p).state = 'I' then
    let r := (List.range num_threads).foldl (rd_snoop thread_num inst) (m, false)
    if r.2 = false then
      { r.1 with
        c := put r.1.c p
               { address := inst.address, value := r.1.memory inst.address, state := 'E' } }
    else r.1
  else m

/-- Lines 170-177: one iteration `i` of the invalidation loop of a Write in state S. -/
def wr_invalidate (thread_num : Nat) (inst : decoded) (m : machine) (i : Nat) : machine :=
  if i ≠ thread_num then
    let q := cacheline i inst
    if (m.c q).address = inst.address then
      { m with c := put m.c q { (m.c q) with state := 'I' } }
    else m
  else m

/-- Lines 186-199: one iteration `i` of the snoop loop of a Write in state I. -/
def wr_snoop (thread_num : Nat) (inst : decoded) (acc : machine × Bool) (i : Nat) :
    machine × Bool :=
  if i ≠ thread_num then
    let p := cacheline thread_num inst
    let q := cacheline i inst
    if (acc.1.c q).state ≠ 'I' ∧ (acc.1.c q).address = inst.address then
      let m1 : machine :=
        { acc.1 with
          c := put acc.1.c p
                 { (acc.1.c p) with value := (acc.1.c q).value, address := inst.address } }
      let m2 : machine := { m1 with c := put m1.c q { (m1.c q) with state := 'I' } }
      let m3 : machine :=
        if acc.2 = false then
          { m2 with memory := put m2.memory inst.address (m2.c q).value }
        else m2
      (m3, true)
    else acc
  else acc

/-- Lines 158-209: the Write transition on the state of `cacheline`, then the stores of
`inst.value` and `inst.address` into the line. -/
def wr (num_threads thread_num : Nat) (inst : decoded) (m : machine) : machine :=
  let p := cacheline thread_num inst
  let m1 : machine :=
    if (m.c p).state = 'M' then m
    else if (m.c p).state = 'E' then
      { m with c := put m.c p { (m.c p) with state := 'M' } }
    else if (m.c p).state = 'S' then
      let r := (List.range num_threads).foldl (wr_invalidate thread_num inst) m
      { r with c := put r.c p { (r.c p) with state := 'M' } }
    else if (m.c p).state = 'I' then
      let r := (List.range num_threads).foldl (wr_snoop thread_num inst) (m, false)
      let r1 : machine :=
        if r.2 = false then
          { r.1 with
            c := put r.1.c p
                   { (r.1.c p) with value := r.1.memory inst.address, address := inst.address } }
        else r.1
      { r1 with c := put r1.c p { (r1.c p) with state := 'M' } }
    else m
  { m1 with c := put m1.c p { (m1.c p) with value := inst.value, address := inst.address } }

/-- Lines 81-218: one iteration of the `while` loop of `cpu_loop`, run by thread
`thread_num` on the decoded instruction `inst`; returns the new store and the record
printed (none when `inst.type` is neither 0 nor 1). -/
def cpu_loop_body (num_threads thread_num : Nat) (inst : decoded) (m : machine) :
    machine × Option event :=
  let p := cacheline thread_num inst
  let m1 := handle_miss thread_num inst m
  let r : machine × Option event :=
    if inst.type = 0 then
      let m2 := rd num_threads thread_num inst m1
      (m2, some { thread_num := thread_num, type := 0, address := inst.address,
                  value := (m2.c p).value })
    else if inst.type = 1 then
      let m2 := wr num_threads thread_num inst m1
      (m2, some { thread_num := thread_num, type := 1, address := inst.address,
                  value := (m2.c p).value })
    else (m1, none)
  ({ r.1 with c := put r.1.c (hash inst) (r.1.c p) }, r.2)

/-- Lines 62-66 of `cpu_loop` and 228-231 of `main`: every line has state I and address
-1 (the value of a line is whatever `malloc` left there, `garbage`); every memory cell
is -1. -/
def init (garbage : Int → Int) : machine :=
  { c := fun i => { address := -1, value := garbage i, state := 'I' },
    memory := fun _ => -1 }

/-- An interleaving: the steps in the order they are taken, each the thread that takes
it and its decoded instruction. -/
def run (num_threads : Nat) : List (Nat × decoded) → machine → machine
  | [], m => m
  | (t, inst) :: rest, m => run num_threads rest (cpu_loop_body num_threads t inst m).1

/-- The decoded `RD a` (lines 32-36). -/
def RD (a : Int) : decoded := { type := 0, address := a, value := -1 }

/-- The decoded `WR a v` (lines 38-43). -/
def WR (a v : Int) : decoded := { type := 1, address := a, value := v }

/-- The address of the instruction is a cell of `memory`. -/
def in_range (inst : decoded) : Prop := 0 ≤ inst.address ∧ inst.address < memory_size

instance (inst : decoded) : Decidable (in_range inst) := by
  unfold in_range; infer_instance

/-- The instruction is a Read or a Write. -/
def is_rw (inst : decoded) : Prop := inst.type = 0 ∨ inst.type = 1

instance (inst : decoded) : Decidable (is_rw inst) := by
  unfold is_rw; infer_instance

/-- The line of thread `t` at slot `k`. -/
def line (m : machine) (t : Nat) (k : Int) : cache := m.c ((t : Int) * cache_size + k)

/-- Thread `i` is another thread than `t` and its line at the slot of `inst` holds the
address of `inst` in a state other than I (the test of lines 122-124). -/
def is_source (t : Nat) (inst : decoded) (m : machine) (i : Nat) : Prop :=
  i ≠ t ∧ (m.c (cacheline i inst)).state ≠ 'I' ∧ (m.c (cacheline i inst)).address = inst.address

instance (t : Nat) (inst : decoded) (m : machine) (i : Nat) :
    Decidable (is_source t inst m i) := by
  unfold is_source; infer_instance

/-- The effect of lines 132-134 on a line: state M or E of a line with tag `A` becomes S. -/
def downgrade (A : Int) (l : cache) : cache :=
  if l.address = A ∧ (l.state = 'M' ∨ l.state = 'E') then { l with state := 'S' } else l

/-- What the first `k` iterations of the snoop loop of a Read have done to the store `m`
they started from, `r` being the store and `found` after them. -/
def rd_snoop_post (t : Nat) (inst : decoded) (m : machine) (k : Nat) (r : machine × Bool) :
    Prop :=
  (r.2 = false → (∀ i, i < k → ¬ is_source t inst m i) ∧ r.1 = m) ∧
  (r.2 = true → ∃ i0, i0 < k ∧ is_source t inst m i0 ∧
      (∀ j, j < i0 → ¬ is_source t inst m j) ∧
      r.1.memory = put m.memory inst.address (m.c (cacheline i0 inst)).value ∧
      r.1.c (cacheline t inst) =
        { address := inst.address, value := (m.c (cacheline i0 inst)).value, state := 'S' }) ∧
  (∀ i, i < k → i ≠ t →
      r.1.c (cacheline i inst) = downgrade inst.address (m.c (cacheline i inst))) ∧
  (∀ x, x ≠ cacheline t inst → (∀ i, i < k → i ≠ t → x ≠ cacheline i inst) →
      r.1.c x = m.c x)

/-- The state letter is one of the four MESI letters. -/
def is_mesi (st : Char) : Prop := st = 'M' ∨ st = 'E' ∨ st = 'S' ∨ st = 'I'

instance (st : Char) : Decidable (is_mesi st) := by
  unfold is_mesi; infer_instance

/-- A system of one agent: agent 0 executes the instructions of `prog` in order. -/
def run_single (prog : List decoded) (m : machine) : machine :=
  run 1 (prog.map fun inst => (0, inst)) m

/-- The last value written to each address, after one more instruction. -/
def record (w : Int → Option Int) (inst : decoded) : Int → Option Int :=
  if inst.type = 1 then fun a => if a = inst.address then some inst.value else w a else w

/-- The value of the last `WR A` of the sequence `prog` (none when `A` is never written). -/
def last_write (prog : List decoded) (A : Int) : Option Int :=
  prog.foldl record (fun _ => none) A

/-- The current value of address `A` in a system of one agent: the value of the line when
slot `A mod cache_size` holds tag `A` in state M, otherwise `memory[A]`. -/
def current (m : machine) (A : Int) : Int :=
  if (line m 0 (A % cache_size)).address = A ∧ (line m 0 (A % cache_size)).state = 'M' then
    (line m 0 (A % cache_size)).value
  else m.memory A

/-- The invariant of a system of one agent: every line has a MESI state letter, a
Modified line sits in the slot of its tag, and the current value of every written
address is the value last written, `w`. -/
def single_inv (m : machine) (w : Int → Option Int) : Prop :=
  (∀ k, 0 ≤ k → k < cache_size →
    is_mesi (m.c k).state ∧ ((m.c k).state = 'M' → (m.c k).address % cache_size = k)) ∧
  (∀ A v, w A = some v → current m A = v)

/-- Mutual exclusion in a system of `n` agents: for every address `A`, when two
different agents each have a line with tag `A`, they are not both in state M or E, and
when one is in state M the other is in state I. -/
def mutual_exclusion (n : Nat) (m : machine) : Prop :=
  ∀ A : Int, 0 ≤ A → A < memory_size → ∀ i j : Nat, i < n → j < n → i ≠ j →
    ∀ k l : Int, 0 ≤ k → k < cache_size → 0 ≤ l → l < cache_size →
      (line m i k).address = A → (line m j l).address = A →
      (((line m i k).state = 'M' ∨ (line m i k).state = 'E') →
        ¬ ((line m j l).state = 'M' ∨ (line m j l).state = 'E')) ∧
      ((line m i k).state = 'M' → (line m j l).state = 'I')

/-- Conversion of an `int` to `byte`, a `char` taken as signed 8-bit. -/
def to_byte (x : Int) : Int := (x + 128) % 256 - 128

/-- The function `decode_inst_line` (lines 27-46) on an instruction line whose first token
is `op` and whose numbers, as `sscanf` stores them (0 when absent), are `addr` and `val`.
The local `inst` is not initialised: `uninit` is its indeterminate content, returned as
it is when the opcode is neither `RD` nor `WR`. -/
def decode_inst_line (op : String) (addr val : Int) (uninit : decoded) : decoded :=
  if op = "RD" then { type := 0, value := -1, address := to_byte addr }
  else if op = "WR" then { type := 1, address := to_byte addr, value := to_byte val }
  else uninit

/-- Every line in which the store `m'` differs from `m` carries the tag of `inst` and
sits at the slot of that tag. -/
def touched (inst : decoded) (m m' : machine) : Prop :=
  ∀ x, m'.c x = m.c x ∨
    ((m'.c x).address = inst.address ∧ x % cache_size = inst.address % cache_size)

/-- The line `l` stored at index `x` of `c` is empty (tag -1, state I) or its tag is a
memory cell that maps to the slot of `x`. -/
def tag_ok (x : Int) (l : cache) : Prop :=
  (l.address = -1 ∧ l.state = 'I') ∨
  (0 ≤ l.address ∧ l.address < memory_size ∧ l.address % cache_size = x % cache_size)

/-- The steps of the interleaving are taken by agents of the system, on instructions
whose address is a memory cell. -/
def well_formed (n : Nat) (sched : List (Nat × decoded)) : Prop :=
  ∀ e, e ∈ sched → e.1 < n ∧ in_range e.2

instance (n : Nat) (sched : List (Nat × decoded)) : Decidable (well_formed n sched) := by
  unfold well_formed; infer_instance

/-- The subscripts at which one iteration of the loop body indexes `memory`, in the order
of execution: line 94, the old tag of the line when the miss handling writes back a
Modified victim; then, for a Read or Write that finds its line in state I after the miss
handling, `inst.address` (line 130 or 194 when a source is found, under `if(!found)`, so
once; line 142 or 201 when none is). Hits and the loop of a Write in state S index
`memory` nowhere. -/
def memory_indices (t : Nat) (inst : decoded) (m : machine) : List Int :=
  (if (m.c (cacheline t inst)).address ≠ inst.address ∧ (m.c (cacheline t inst)).state = 'M'
    then [(m.c (cacheline t inst)).address] else []) ++
  (if is_rw inst ∧ ((handle_miss t inst m).c (cacheline t inst)).state = 'I'
    then [inst.address] else [])

/-! ## One step, by the type of the instruction -/

theorem cpu_loop_body_rd (n t : Nat) (inst : decoded) (m : machine) (h : inst.type = 0) :
    cpu_loop_body n t inst m =
      ({ c := put (rd n t inst (handle_miss t inst m)).c (hash inst)
                ((rd n t inst (handle_miss t inst m)).c (cacheline t inst)),
         memory := (rd n t inst (handle_miss t inst m)).memory },
       some { thread_num := t, type := 0, address := inst.address,
              value := ((rd n t inst (handle_miss t inst m)).c (cacheline t inst)).value }) := by
  unfold cpu_loop_body
  simp [h]

theorem cpu_loop_body_wr (n t : Nat) (inst : decoded) (m : machine) (h : inst.type = 1) :
    cpu_loop_body n t inst m =
      ({ c := put (wr n t inst (handle_miss t inst m)).c (hash inst)
                ((wr n t inst (handle_miss t inst m)).c (cacheline t inst)),
         memory := (wr n t inst (handle_miss t inst m)).memory },
       some { thread_num := t, type := 1, address := inst.address,
              value := ((wr n t inst (handle_miss t inst m)).c (cacheline t inst)).value }) := by
  unfold cpu_loop_body
  simp [h]

/-! ## Arrays and indices -/

@[simp] theorem put_same {α : Type} (f : Int → α) (i : Int) (v : α) : put f i v i = v := by
  simp [put]

theorem put_other {α : Type} (f : Int → α) (i j : Int) (v : α) (h : j ≠ i) :
    put f i v j = f j := by
  simp [put, h]

@[simp] theorem put_copy {α : Type} (f : Int → α) (i p : Int) : put f i (f p) p = f p := by
  unfold put; split <;> rfl

theorem hash_of_in_range (inst : decoded) (h : in_range inst) :
    hash inst = inst.address % cache_size := by
  unfold hash
  exact Int.tmod_eq_emod h.1 (by decide)

theorem hash_bounds (inst : decoded) (h : in_range inst) :
    0 ≤ hash inst ∧ hash inst < cache_size := by
  rw [hash_of_in_range inst h]
  unfold cache_size
  omega

theorem cacheline_eq_line (m : machine) (t : Nat) (inst : decoded) (h : in_range inst) :
    m.c (cacheline t inst) = line m t (inst.address % cache_size) := by
  unfold cacheline line
  rw [hash_of_in_range inst h]

/-- The lines of two threads at one slot are two cells of `c`. -/
theorem cacheline_ne_other (t i : Nat) (inst : decoded) (h : i ≠ t) :
    cacheline t inst ≠ cacheline i inst := by
  unfold cacheline cache_size
  omega

/-! ## The Write transition on the line of the writer -/

theorem wr_own_line (n t : Nat) (inst : decoded) (m : machine) :
    (wr n t inst m).c (cacheline t inst) =
      { address := inst.address, value := inst.value,
        state := if is_mesi (m.c (cacheline t inst)).state then 'M'
                 else (m.c (cacheline t inst)).state } := by
  unfold wr
  simp only []
  split_ifs <;> simp_all [is_mesi]

theorem handle_miss_own_line (t : Nat) (inst : decoded) (m : machine) :
    (handle_miss t inst m).c (cacheline t inst) =
      if (m.c (cacheline t inst)).address ≠ inst.address then
        { address := inst.address, value := -1, state := 'I' }
      else m.c (cacheline t inst) := by
  unfold handle_miss
  simp only []
  split_ifs <;> simp

/-! ## Loops -/

theorem foldl_invariant {β ι : Type} (P : β → Prop) (f : β → ι → β) (l : List ι) (b : β)
    (hb : P b) (hf : ∀ b i, P b → P (f b i)) : P (l.foldl f b) := by
  induction l generalizing b with
  | nil => exact hb
  | cons i l ih => exact ih _ (hf b i hb)

/-- The snoop loop of a Read writes no memory cell other than `inst.address`. -/
theorem rd_snoop_memory_frame (t : Nat) (inst : decoded) (l : List Nat) (acc : machine × Bool)
    (T : Int) (hT : T ≠ inst.address) :
    (l.foldl (rd_snoop t inst) acc).1.memory T = acc.1.memory T := by
  refine foldl_invariant (fun r => r.1.memory T = acc.1.memory T) (rd_snoop t inst) l acc rfl ?_
  intro b i hb
  unfold rd_snoop
  simp only []
  split_ifs <;> simp [put_other, hT, hb]

/-- The snoop loop of a Read keeps the tag of the reader's line once it is
`inst.address`. -/
theorem rd_snoop_own_address (t : Nat) (inst : decoded) (l : List Nat) (acc : machine × Bool)
    (h : (acc.1.c (cacheline t inst)).address = inst.address) :
    ((l.foldl (rd_snoop t inst) acc).1.c (cacheline t inst)).address = inst.address := by
  refine foldl_invariant (fun r => (r.1.c (cacheline t inst)).address = inst.address) (rd_snoop t inst) l acc h ?_
  intro b i hb
  unfold rd_snoop
  by_cases hi : i = t
  · simp [hi, hb]
  · have hq := cacheline_ne_other t i inst hi
    simp only []
    split_ifs <;> simp [put_other _ _ _ _ hq, hb]

theorem rd_memory_frame (n t : Nat) (inst : decoded) (m : machine) (T : Int)
    (hT : T ≠ inst.address) : (rd n t inst m).memory T = m.memory T := by
  unfold rd
  simp only []
  split_ifs <;> simp [rd_snoop_memory_frame, hT]

theorem rd_own_address (n t : Nat) (inst : decoded) (m : machine)
    (h : (m.c (cacheline t inst)).address = inst.address) :
    ((rd n t inst m).c (cacheline t inst)).address = inst.address := by
  unfold rd
  simp only []
  split_ifs
  · simp
  · exact rd_snoop_own_address t inst _ _ h
  · exact h

/-- The invalidation loop of a Write in state S writes no memory cell. -/
theorem wr_invalidate_memory (t : Nat) (inst : decoded) (l : List Nat) (m : machine) :
    (l.foldl (wr_invalidate t inst) m).memory = m.memory := by
  refine foldl_invariant (fun r => r.memory = m.memory) (wr_invalidate t inst) l m rfl ?_
  intro b i hb
  unfold wr_invalidate
  simp only []
  split_ifs <;> simp [hb]

/-- The snoop loop of a Write writes no memory cell other than `inst.address`. -/
theorem wr_snoop_memory_frame (t : Nat) (inst : decoded) (l : List Nat) (acc : machine × Bool)
    (T : Int) (hT : T ≠ inst.address) :
    (l.foldl (wr_snoop t inst) acc).1.memory T = acc.1.memory T := by
  refine foldl_invariant (fun r => r.1.memory T = acc.1.memory T) (wr_snoop t inst) l acc rfl ?_
  intro b i hb
  unfold wr_snoop
  simp only []
  split_ifs <;> simp [put_other, hT, hb]

theorem wr_memory_frame (n t : Nat) (inst : decoded) (m : machine) (T : Int)
    (hT : T ≠ inst.address) : (wr n t inst m).memory T = m.memory T := by
  unfold wr
  simp only []
  split_ifs <;> simp [wr_snoop_memory_frame, wr_invalidate_memory, hT]

theorem handle_miss_memory (t : Nat) (inst : decoded) (m : machine) (T : Int) :
    (handle_miss t inst m).memory T =
      if (m.c (cacheline t inst)).address ≠ inst.address ∧
          (m.c (cacheline t inst)).state = 'M' ∧ T = (m.c (cacheline t inst)).address
      then (m.c (cacheline t inst)).value else m.memory T := by
  unfold handle_miss put
  simp only []
  split_ifs <;> simp_all

/-! ## The snoop loop of a Read, in closed form -/

theorem downgrade_of_not_source (t i : Nat) (inst : decoded) (m : machine)
    (hi : i ≠ t) (h : ¬ is_source t inst m i) :
    downgrade inst.address (m.c (cacheline i inst)) = m.c (cacheline i inst) := by
  unfold downgrade
  unfold is_source at h
  split_ifs with hc
  · exfalso
    apply h
    refine ⟨hi, ?_, hc.1⟩
    rcases hc.2 with h1 | h1 <;> rw [h1] <;> decide
  · rfl

/-- One iteration of the snoop loop of a Read, for a thread other than the reader whose
line is a source. -/
theorem rd_snoop_source (t i : Nat) (inst : decoded) (acc : machine × Bool) (hi : i ≠ t)
    (hs : is_source t inst acc.1 i) :
    (rd_snoop t inst acc i).2 = true ∧
    (rd_snoop t inst acc i).1.memory =
      (if acc.2 = false then put acc.1.memory inst.address (acc.1.c (cacheline i inst)).value
       else acc.1.memory) ∧
    (rd_snoop t inst acc i).1.c (cacheline i inst) =
      downgrade inst.address (acc.1.c (cacheline i inst)) ∧
    (rd_snoop t inst acc i).1.c (cacheline t inst) =
      (if acc.2 = false then
        { address := inst.address, value := (acc.1.c (cacheline i inst)).value, state := 'S' }
       else acc.1.c (cacheline t inst)) ∧
    (∀ x, x ≠ cacheline t inst → x ≠ cacheline i inst →
      (rd_snoop t inst acc i).1.c x = acc.1.c x) := by
  have hq := cacheline_ne_other t i inst hi
  have hc : (acc.1.c (cacheline i inst)).state ≠ 'I' ∧
      (acc.1.c (cacheline i inst)).address = inst.address := hs.2
  unfold rd_snoop downgrade
  simp only [hi, ne_eq, not_false_eq_true, if_true, hc, and_self, true_and]
  have he : ∀ l : cache, (put acc.1.c (cacheline t inst) l) (cacheline i inst) =
      acc.1.c (cacheline i inst) := fun l => put_other _ _ _ _ hq.symm
  cases hb : acc.2
  · simp only [if_true, he, Bool.false_eq_true, if_false]
    refine ⟨?_, ?_, ?_, ?_⟩
    · split_ifs <;> rfl
    · split_ifs <;> simp [he, hc.2]
    · split_ifs <;> simp [put_other _ _ _ _ hq]
    · intro x hx1 hx2
      split_ifs <;> simp [put_other _ _ _ _ hx1, put_other _ _ _ _ hx2]
  · simp only [Bool.true_eq_false, if_false]
    refine ⟨?_, ?_, ?_, ?_⟩
    · split_ifs <;> rfl
    · split_ifs <;> simp [hc.2]
    · split_ifs <;> simp [put_other _ _ _ _ hq]
    · intro x hx1 hx2
      split_ifs <;> simp [put_other _ _ _ _ hx2]

/-- One iteration of the snoop loop of a Read that finds no source changes nothing. -/
theorem rd_snoop_not_source (t i : Nat) (inst : decoded) (acc : machine × Bool)
    (hs : ¬ is_source t inst acc.1 i) : rd_snoop t inst acc i = acc := by
  unfold rd_snoop
  unfold is_source at hs
  by_cases hi : i = t
  · simp [hi]
  · simp only [ne_eq, hi, not_false_eq_true, true_and] at hs
    simp [hi, hs]

theorem cacheline_injective (i j : Nat) (inst : decoded) (h : i ≠ j) :
    cacheline i inst ≠ cacheline j inst := by
  unfold cacheline cache_size
  omega

theorem rd_snoop_loop (t : Nat) (inst : decoded) (m : machine) (k : Nat) :
    rd_snoop_post t inst m k ((List.range k).foldl (rd_snoop t inst) (m, false)) := by
  induction k with
  | zero =>
    refine ⟨fun _ => ⟨fun i hi => absurd hi (Nat.not_lt_zero i), rfl⟩, fun h => ?_,
      fun i hi => absurd hi (Nat.not_lt_zero i), fun x _ _ => rfl⟩
    simp at h
  | succ k ih =>
    rw [List.range_succ, List.foldl_append]
    simp only [List.foldl_cons, List.foldl_nil]
    generalize (List.range k).foldl (rd_snoop t inst) (m, false) = r at ih
    obtain ⟨ih1, ih2, ih3, ih4⟩ := ih
    by_cases hkt : k = t
    · have hns : ¬ is_source t inst r.1 k := fun h => h.1 hkt
      have hnm : ¬ is_source t inst m k := fun h => h.1 hkt
      rw [rd_snoop_not_source t k inst r hns]
      refine ⟨fun h => ⟨fun i hi => ?_, (ih1 h).2⟩, fun h => ?_, fun i hi hit => ?_,
        fun x hx hall => ?_⟩
      · rcases Nat.lt_succ_iff_lt_or_eq.mp hi with h1 | h1
        · exact (ih1 h).1 i h1
        · rw [h1]; exact hnm
      · obtain ⟨i0, h0, hrest⟩ := ih2 h
        exact ⟨i0, Nat.lt_succ_of_lt h0, hrest⟩
      · rcases Nat.lt_succ_iff_lt_or_eq.mp hi with h1 | h1
        · exact ih3 i h1 hit
        · exact absurd (h1.trans hkt) hit
      · exact ih4 x hx (fun i hi hit => hall i (Nat.lt_succ_of_lt hi) hit)
    · have hline : r.1.c (cacheline k inst) = m.c (cacheline k inst) :=
        ih4 _ (cacheline_ne_other t k inst hkt).symm
          (fun i hi _ => cacheline_injective k i inst (Nat.ne_of_gt hi))
      have hiff : is_source t inst r.1 k ↔ is_source t inst m k := by
        unfold is_source
        rw [hline]
      by_cases hs : is_source t inst m k
      · obtain ⟨s1, s2, s3, s4, s5⟩ := rd_snoop_source t k inst r hkt (hiff.mpr hs)
        refine ⟨fun h => ?_, fun _ => ?_, fun i hi hit => ?_, fun x hx hall => ?_⟩
        · rw [s1] at h; exact absurd h (by decide)
        · cases hb : r.2
          · obtain ⟨hno, hrm⟩ := ih1 hb
            refine ⟨k, Nat.lt_succ_self k, hs, hno, ?_, ?_⟩
            · rw [s2, hb, hrm]; simp
            · rw [s4, hb, hrm]; simp
          · obtain ⟨i0, h0, hsrc, hmin, hmem, hp⟩ := ih2 hb
            refine ⟨i0, Nat.lt_succ_of_lt h0, hsrc, hmin, ?_, ?_⟩
            · rw [s2, hb, hmem]; simp
            · rw [s4, hb, hp]; simp
        · rcases Nat.lt_succ_iff_lt_or_eq.mp hi with h1 | h1
          · rw [s5 _ (cacheline_ne_other t i inst hit).symm
              (cacheline_injective i k inst (Nat.ne_of_lt h1))]
            exact ih3 i h1 hit
          · rw [h1, s3, hline]
        · rw [s5 x hx (hall k (Nat.lt_succ_self k) hkt)]
          exact ih4 x hx (fun i hi hit => hall i (Nat.lt_succ_of_lt hi) hit)
      · rw [rd_snoop_not_source t k inst r (fun h => hs (hiff.mp h))]
        refine ⟨fun h => ⟨fun i hi => ?_, (ih1 h).2⟩, fun h => ?_, fun i hi hit => ?_,
          fun x hx hall => ?_⟩
        · rcases Nat.lt_succ_iff_lt_or_eq.mp hi with h1 | h1
          · exact (ih1 h).1 i h1
          · rw [h1]; exact hs
        · obtain ⟨i0, h0, hrest⟩ := ih2 h
          exact ⟨i0, Nat.lt_succ_of_lt h0, hrest⟩
        · rcases Nat.lt_succ_iff_lt_or_eq.mp hi with h1 | h1
          · exact ih3 i h1 hit
          · rw [h1, hline, downgrade_of_not_source t k inst m hkt hs]
        · exact ih4 x hx (fun i hi hit => hall i (Nat.lt_succ_of_lt hi) hit)

/-! ## The miss handling and the Read transition -/

theorem handle_miss_other_line (t : Nat) (inst : decoded) (m : machine) (x : Int)
    (hx : x ≠ cacheline t inst) : (handle_miss t inst m).c x = m.c x := by
  unfold handle_miss
  simp only []
  split_ifs <;> simp [put_other _ _ _ _ hx]

theorem handle_miss_memory_address (t : Nat) (inst : decoded) (m : machine) :
    (handle_miss t inst m).memory inst.address = m.memory inst.address := by
  rw [handle_miss_memory]
  split_ifs with h
  · exact absurd h.2.2.symm h.1
  · rfl

theorem is_source_handle_miss (t i : Nat) (inst : decoded) (m : machine) :
    is_source t inst (handle_miss t inst m) i ↔ is_source t inst m i := by
  unfold is_source
  by_cases hi : i = t
  · simp [hi]
  · rw [handle_miss_other_line t inst m _ (cacheline_ne_other t i inst hi).symm]

/-- After the miss handling the line of a reader that misses has the tag of the
instruction and state I. -/
theorem handle_miss_invalid (t : Nat) (inst : decoded) (m : machine)
    (hmiss : (m.c (cacheline t inst)).address ≠ inst.address ∨
      (m.c (cacheline t inst)).state = 'I') :
    ((handle_miss t inst m).c (cacheline t inst)).state = 'I' := by
  rw [handle_miss_own_line]
  split_ifs with h
  · rfl
  · rcases hmiss with h1 | h1
    · exact absurd h1 h
    · exact h1

/-- A Read in state I that finds no source fetches from memory and becomes Exclusive. -/
theorem rd_no_source (n t : Nat) (inst : decoded) (m : machine)
    (hI : (m.c (cacheline t inst)).state = 'I')
    (hno : ∀ i, i < n → ¬ is_source t inst m i) :
    rd n t inst m =
      { c := put m.c (cacheline t inst)
               { address := inst.address, value := m.memory inst.address, state := 'E' },
        memory := m.memory } := by
  obtain ⟨h1, h2, -, -⟩ := rd_snoop_loop t inst m n
  unfold rd
  simp only [hI, if_true]
  cases hb : ((List.range n).foldl (rd_snoop t inst) (m, false)).2
  · simp only [if_true]
    rw [(h1 hb).2]
  · obtain ⟨i0, h0, hs, -⟩ := h2 hb
    exact absurd hs (hno i0 h0)

/-- A Read in state I that finds a source: the first source supplies the value, the line
becomes Shared, memory gets the value, every other line at the slot is downgraded. -/
theorem rd_with_source (n t i0 : Nat) (inst : decoded) (m : machine)
    (hI : (m.c (cacheline t inst)).state = 'I')
    (h0 : i0 < n) (hs : is_source t inst m i0)
    (hmin : ∀ j, j < i0 → ¬ is_source t inst m j) :
    (rd n t inst m).c (cacheline t inst) =
      { address := inst.address, value := (m.c (cacheline i0 inst)).value, state := 'S' } ∧
    (rd n t inst m).memory = put m.memory inst.address (m.c (cacheline i0 inst)).value ∧
    (∀ i, i < n → i ≠ t →
      (rd n t inst m).c (cacheline i inst) = downgrade inst.address (m.c (cacheline i inst))) ∧
    (∀ x, x ≠ cacheline t inst → (∀ i, i < n → i ≠ t → x ≠ cacheline i inst) →
      (rd n t inst m).c x = m.c x) := by
  obtain ⟨h1, h2, h3, h4⟩ := rd_snoop_loop t inst m n
  unfold rd
  simp only [hI, if_true]
  cases hb : ((List.range n).foldl (rd_snoop t inst) (m, false)).2
  · exact absurd hs ((h1 hb).1 i0 h0)
  · simp only [Bool.true_eq_false, if_false]
    obtain ⟨i1, -, hs1, hmin1, hmem, hp⟩ := h2 hb
    have hi : i1 = i0 := by
      rcases Nat.lt_trichotomy i1 i0 with h | h | h
      · exact absurd hs1 (hmin i1 h)
      · exact h
      · exact absurd hs (hmin1 i0 h)
    rw [hi] at hmem hp
    exact ⟨hp, hmem, h3, h4⟩

/-! ## A system of one agent -/

theorem cacheline_zero (inst : decoded) : cacheline 0 inst = hash inst := by
  simp [cacheline]

theorem put_self {α : Type} (f : Int → α) (i : Int) : put f i (f i) = f := by
  funext x
  unfold put
  split_ifs with h
  · rw [h]
  · rfl

/-- With one agent the loops of a Write visit no other thread. -/
theorem wr_single (inst : decoded) (m : machine) :
    (wr 1 0 inst m).memory = m.memory ∧
    ∀ x, x ≠ cacheline 0 inst → (wr 1 0 inst m).c x = m.c x := by
  have hl : List.range 1 = [0] := rfl
  unfold wr
  simp only [hl, List.foldl_cons, List.foldl_nil]
  have h1 : ∀ r, wr_invalidate 0 inst r 0 = r := fun r => by simp [wr_invalidate]
  have h2 : ∀ r, wr_snoop 0 inst r 0 = r := fun r => by simp [wr_snoop]
  simp only [h1, h2, if_true]
  constructor
  · split_ifs <;> rfl
  · intro x hx
    split_ifs <;> simp [put_other _ _ _ _ hx]

/-- With one agent a Read in state I fetches from memory; in another state it changes
nothing. -/
theorem rd_single (inst : decoded) (m : machine) :
    rd 1 0 inst m =
      if (m.c (cacheline 0 inst)).state = 'I' then
        { c := put m.c (cacheline 0 inst)
                 { address := inst.address, value := m.memory inst.address, state := 'E' },
          memory := m.memory }
      else m := by
  split_ifs with h
  · exact rd_no_source 1 0 inst m h (fun i hi hs => hs.1 (by omega))
  · unfold rd
    simp [h]

/-- One step of the agent of a one-agent system, in closed form. -/
theorem single_step (inst : decoded) (m : machine) (hrw : is_rw inst)
    (hm : is_mesi (m.c (hash inst)).state) :
    (∀ x, x ≠ hash inst → (cpu_loop_body 1 0 inst m).1.c x = m.c x) ∧
    (∀ T, (cpu_loop_body 1 0 inst m).1.memory T =
      if (m.c (hash inst)).address ≠ inst.address ∧ (m.c (hash inst)).state = 'M' ∧
          T = (m.c (hash inst)).address
      then (m.c (hash inst)).value else m.memory T) ∧
    (cpu_loop_body 1 0 inst m).1.c (hash inst) =
      if inst.type = 1 then { address := inst.address, value := inst.value, state := 'M' }
      else if (m.c (hash inst)).address ≠ inst.address ∨ (m.c (hash inst)).state = 'I' then
        { address := inst.address, value := m.memory inst.address, state := 'E' }
      else m.c (hash inst) := by
  have hp := cacheline_zero inst
  have hown := handle_miss_own_line 0 inst m
  have hoth := handle_miss_other_line 0 inst m
  have hmem := handle_miss_memory 0 inst m
  have hmemA := handle_miss_memory_address 0 inst m
  rw [hp] at hown hoth hmem
  rcases hrw with h0 | h1
  · have hne : inst.type ≠ 1 := by omega
    rw [cpu_loop_body_rd 1 0 inst m h0, hp, put_self, rd_single, hp]
    simp only [hne, if_false]
    by_cases hI : ((handle_miss 0 inst m).c (hash inst)).state = 'I'
    · simp only [hI, if_true]
      refine ⟨fun x hx => ?_, hmem, ?_⟩
      · rw [put_other _ _ _ _ hx, hoth x hx]
      · rw [put_same, hmemA]
        rw [hown] at hI
        split_ifs at hI ⊢ <;> simp_all
    · simp only [hI, if_false]
      refine ⟨hoth, hmem, ?_⟩
      rw [hown] at hI ⊢
      split_ifs at hI ⊢ <;> simp_all
  · obtain ⟨w1, w2⟩ := wr_single inst (handle_miss 0 inst m)
    rw [hp] at w2
    rw [cpu_loop_body_wr 1 0 inst m h1, hp, put_self]
    simp only [h1, if_true]
    refine ⟨fun x hx => by rw [w2 x hx, hoth x hx], fun T => by rw [w1, hmem], ?_⟩
    have hw := wr_own_line 1 0 inst (handle_miss 0 inst m)
    rw [hp] at hw
    rw [hw, hown]
    split_ifs <;> simp_all [is_mesi]

theorem current_eq (m : machine) (A : Int) :
    current m A =
      if (m.c (A % cache_size)).address = A ∧ (m.c (A % cache_size)).state = 'M' then
        (m.c (A % cache_size)).value
      else m.memory A := by
  simp [current, line]

theorem record_other (w : Int → Option Int) (inst : decoded) (A : Int)
    (h : A ≠ inst.address) : record w inst A = w A := by
  unfold record
  split_ifs <;> simp [h]

/-- One step of the agent of a one-agent system keeps the invariant. -/
theorem single_inv_step (inst : decoded) (m : machine) (w : Int → Option Int)
    (hr : in_range inst) (hrw : is_rw inst) (h : single_inv m w) :
    single_inv (cpu_loop_body 1 0 inst m).1 (record w inst) := by
  obtain ⟨hI1, hI2⟩ := h
  have hh := hash_of_in_range inst hr
  obtain ⟨hb1, hb2⟩ := hash_bounds inst hr
  obtain ⟨hm, htag⟩ := hI1 (hash inst) hb1 hb2
  obtain ⟨s1, s2, s3⟩ := single_step inst m hrw hm
  generalize (cpu_loop_body 1 0 inst m).1 = m' at s1 s2 s3
  have haddr : (m'.c (hash inst)).address = inst.address := by
    rw [s3]
    split_ifs with h1 h2
    · rfl
    · rfl
    · push_neg at h2
      exact h2.1
  refine ⟨fun k hk1 hk2 => ?_, fun A v hw => ?_⟩
  · by_cases hk : k = hash inst
    · rw [hk]
      refine ⟨?_, fun _ => by rw [haddr, hh]⟩
      rw [s3]
      split_ifs
      · exact Or.inl rfl
      · exact Or.inr (Or.inl rfl)
      · exact hm
    · rw [s1 k hk]
      exact hI1 k hk1 hk2
  · rw [current_eq]
    by_cases hAB : A = inst.address
    · rw [hAB, ← hh, haddr]
      rcases hrw with h0 | h1
      · have hne : inst.type ≠ 1 := by omega
        have hw1 : w inst.address = some v := by
          rw [hAB] at hw
          simpa [record, hne] using hw
        have hcur := hI2 _ _ hw1
        rw [current_eq, ← hh] at hcur
        have s2B := s2 inst.address
        have h2 : ¬ ((m.c (hash inst)).address ≠ inst.address ∧
            (m.c (hash inst)).state = 'M' ∧ inst.address = (m.c (hash inst)).address) :=
          fun hc => hc.1 hc.2.2.symm
        rw [if_neg h2] at s2B
        rw [s3, s2B]
        simp only [hne, if_false]
        by_cases hmiss : (m.c (hash inst)).address ≠ inst.address ∨ (m.c (hash inst)).state = 'I'
        · have h1 : ¬ ((m.c (hash inst)).address = inst.address ∧
              (m.c (hash inst)).state = 'M') := by
            rintro ⟨ha, hs⟩
            rcases hmiss with h | h
            · exact h ha
            · rw [hs] at h
              exact absurd h (by decide)
          rw [if_neg h1] at hcur
          rw [if_pos hmiss, ← hcur]
          simp
        · rw [if_neg hmiss]
          push_neg at hmiss
          rw [← hcur]
          simp [hmiss.1]
      · have hv : v = inst.value := by
          rw [hAB] at hw
          simp [record, h1] at hw
          exact hw.symm
        rw [s3]
        simp [h1, hv]
    · have hw1 : w A = some v := by rw [← record_other w inst A hAB]; exact hw
      have hcur := hI2 _ _ hw1
      rw [current_eq] at hcur
      by_cases hslot : A % cache_size = hash inst
      · rw [hslot] at hcur ⊢
        have hne : ¬ ((m'.c (hash inst)).address = A ∧ (m'.c (hash inst)).state = 'M') :=
          fun hc => hAB (hc.1.symm.trans haddr)
        rw [if_neg hne, s2, ← hcur]
        by_cases hc : (m.c (hash inst)).address = A ∧ (m.c (hash inst)).state = 'M'
        · have hc2 : (m.c (hash inst)).address ≠ inst.address ∧
              (m.c (hash inst)).state = 'M' ∧ A = (m.c (hash inst)).address :=
            ⟨fun hx => hAB (hc.1.symm.trans hx), hc.2, hc.1.symm⟩
          rw [if_pos hc, if_pos hc2]
        · have hc2 : ¬ ((m.c (hash inst)).address ≠ inst.address ∧
              (m.c (hash inst)).state = 'M' ∧ A = (m.c (hash inst)).address) :=
            fun hx => hc ⟨hx.2.2.symm, hx.2.1⟩
          rw [if_neg hc, if_neg hc2]
      · rw [s1 _ hslot, s2]
        have hne : ¬ ((m.c (hash inst)).address ≠ inst.address ∧
            (m.c (hash inst)).state = 'M' ∧ A = (m.c (hash inst)).address) := by
          rintro ⟨-, hM, hA⟩
          apply hslot
          rw [hA]
          exact htag hM
        rw [if_neg hne]
        exact hcur

theorem single_inv_init (g : Int → Int) : single_inv (init g) (fun _ => none) := by
  refine ⟨fun k _ _ => ⟨Or.inr (Or.inr (Or.inr rfl)), fun h => ?_⟩, fun A v h => ?_⟩
  · exact absurd (show 'I' = 'M' from h) (by decide)
  · exact absurd h (by simp)

theorem single_inv_run (prog : List decoded) (m : machine) (w : Int → Option Int)
    (hprog : ∀ inst, inst ∈ prog → in_range inst ∧ is_rw inst) (h : single_inv m w) :
    single_inv (run_single prog m) (prog.foldl record w) := by
  induction prog generalizing m w with
  | nil => exact h
  | cons inst rest ih =>
    have hi := hprog inst (List.mem_cons_self inst rest)
    exact ih _ _ (fun i hmem => hprog i (List.mem_cons_of_mem inst hmem))
      (single_inv_step inst m w hi.1 hi.2 h)

/-- After a Write step the line of the writer holds the written value and a state that
is not I (state M when the state before was a MESI letter). -/
theorem wr_step_own_line (n t : Nat) (A V : Int) (m : machine) :
    ((cpu_loop_body n t (WR A V) m).1.c (cacheline t (WR A V))).address = A ∧
    ((cpu_loop_body n t (WR A V) m).1.c (cacheline t (WR A V))).value = V ∧
    ((cpu_loop_body n t (WR A V) m).1.c (cacheline t (WR A V))).state ≠ 'I' ∧
    (is_mesi (m.c (cacheline t (WR A V))).state →
      ((cpu_loop_body n t (WR A V) m).1.c (cacheline t (WR A V))).state = 'M') ∧
    (cpu_loop_body n t (WR A V) m).2 =
      some { thread_num := t, type := 1, address := A, value := V } := by
  have ha : (WR A V).address = A := rfl
  have hv : (WR A V).value = V := rfl
  rw [cpu_loop_body_wr n t (WR A V) m rfl]
  simp only [put_copy]
  simp only [wr_own_line, handle_miss_own_line, ha, hv]
  refine ⟨trivial, trivial, ?_, ?_, trivial⟩
  · split_ifs <;> simp_all [is_mesi]
  · intro h
    split_ifs <;> simp_all [is_mesi]

/-! ## Which lines a step can change -/

theorem cacheline_slot (i : Nat) (inst : decoded) (hr : in_range inst) :
    cacheline i inst % cache_size = inst.address % cache_size := by
  unfold cacheline
  rw [hash_of_in_range inst hr]
  unfold cache_size
  omega

theorem hash_slot (inst : decoded) (hr : in_range inst) :
    hash inst % cache_size = inst.address % cache_size := by
  rw [hash_of_in_range inst hr]
  unfold cache_size
  omega

theorem touched_refl (inst : decoded) (m : machine) : touched inst m m :=
  fun _ => Or.inl rfl

theorem touched_trans (inst : decoded) (m1 m2 m3 : machine)
    (h12 : touched inst m1 m2) (h23 : touched inst m2 m3) : touched inst m1 m3 := by
  intro x
  rcases h23 x with h | h
  · rw [h]
    exact h12 x
  · exact Or.inr h

theorem touched_put (inst : decoded) (m : machine) (x0 : Int) (v : cache) (mem : Int → Int)
    (hv : v.address = inst.address)
    (hx : x0 % cache_size = inst.address % cache_size) :
    touched inst m { c := put m.c x0 v, memory := mem } := by
  intro x
  by_cases h : x = x0
  · right
    rw [h]
    simp [hv, hx]
  · left
    simp [put_other _ _ _ _ h]

/-- A line that had the tag of `inst` before still has it where the store was touched. -/
theorem touched_address (inst : decoded) (m m' : machine) (x : Int)
    (h : touched inst m m') (hx : (m.c x).address = inst.address) :
    (m'.c x).address = inst.address := by
  rcases h x with h1 | h1
  · rw [h1]
    exact hx
  · exact h1.1

theorem handle_miss_touched (t : Nat) (inst : decoded) (m : machine) (hr : in_range inst) :
    touched inst m (handle_miss t inst m) := by
  unfold handle_miss
  simp only []
  split_ifs <;>
    first
    | exact touched_refl inst m
    | exact touched_put inst m _ _ _ rfl (cacheline_slot t inst hr)

theorem rd_snoop_touched (t i : Nat) (inst : decoded) (acc : machine × Bool)
    (hr : in_range inst) : touched inst acc.1 (rd_snoop t inst acc i).1 := by
  have hp := cacheline_slot t inst hr
  have hq := cacheline_slot i inst hr
  unfold rd_snoop
  simp only []
  split_ifs with h1 h2 h3 h4
  · refine touched_trans inst acc.1
      { c := put acc.1.c (cacheline t inst)
               { address := inst.address, value := (acc.1.c (cacheline i inst)).value,
                 state := 'S' },
        memory := put acc.1.memory inst.address (acc.1.c (cacheline i inst)).value } _
      (touched_put inst acc.1 _ _ _ (by rfl) hp) ?_
    refine touched_put inst _ _ _ _ ?_ hq
    simp only [put]
    split_ifs
    · rfl
    · exact h2.2
  · exact touched_put inst acc.1 _ _ _ (by rfl) hp
  · exact touched_put inst acc.1 _ _ _ h2.2 hq
  · exact touched_refl inst _
  · exact touched_refl inst _
  · exact touched_refl inst _

theorem rd_snoop_fold_touched (t : Nat) (inst : decoded) (l : List Nat)
    (acc : machine × Bool) (hr : in_range inst) :
    touched inst acc.1 (l.foldl (rd_snoop t inst) acc).1 := by
  refine foldl_invariant (fun r => touched inst acc.1 r.1) (rd_snoop t inst) l acc
    (touched_refl inst _) ?_
  intro b i hb
  exact touched_trans inst _ _ _ hb (rd_snoop_touched t i inst b hr)

theorem rd_touched (n t : Nat) (inst : decoded) (m : machine) (hr : in_range inst) :
    touched inst m (rd n t inst m) := by
  unfold rd
  simp only []
  split_ifs
  · exact touched_trans inst _ _ _ (rd_snoop_fold_touched t inst _ (m, false) hr)
      (touched_put inst _ _ _ _ (by rfl) (cacheline_slot t inst hr))
  · exact rd_snoop_fold_touched t inst _ (m, false) hr
  · exact touched_refl inst m

theorem wr_invalidate_touched (t i : Nat) (inst : decoded) (m : machine)
    (hr : in_range inst) : touched inst m (wr_invalidate t inst m i) := by
  unfold wr_invalidate
  simp only []
  split_ifs with h1 h2
  · exact touched_put inst m _ _ _ h2 (cacheline_slot i inst hr)
  · exact touched_refl inst m
  · exact touched_refl inst m

theorem wr_invalidate_fold_touched (t : Nat) (inst : decoded) (l : List Nat) (m : machine)
    (hr : in_range inst) : touched inst m (l.foldl (wr_invalidate t inst) m) := by
  refine foldl_invariant (fun r => touched inst m r) (wr_invalidate t inst) l m
    (touched_refl inst _) ?_
  intro b i hb
  exact touched_trans inst _ _ _ hb (wr_invalidate_touched t i inst b hr)

theorem wr_snoop_touched (t i : Nat) (inst : decoded) (acc : machine × Bool)
    (hr : in_range inst) : touched inst acc.1 (wr_snoop t inst acc i).1 := by
  have hp := cacheline_slot t inst hr
  have hq := cacheline_slot i inst hr
  have h12 : ∀ h2 : (acc.1.c (cacheline i inst)).address = inst.address,
      touched inst acc.1
        { c := put (put acc.1.c (cacheline t inst)
                 { address := inst.address, value := (acc.1.c (cacheline i inst)).value,
                   state := (acc.1.c (cacheline t inst)).state })
               (cacheline i inst)
               { address := (put acc.1.c (cacheline t inst)
                   { address := inst.address, value := (acc.1.c (cacheline i inst)).value,
                     state := (acc.1.c (cacheline t inst)).state } (cacheline i inst)).address,
                 value := (put acc.1.c (cacheline t inst)
                   { address := inst.address, value := (acc.1.c (cacheline i inst)).value,
                     state := (acc.1.c (cacheline t inst)).state } (cacheline i inst)).value,
                 state := 'I' },
          memory := acc.1.memory } := by
    intro h2
    refine touched_trans inst acc.1
      { c := put acc.1.c (cacheline t inst)
               { address := inst.address, value := (acc.1.c (cacheline i inst)).value,
                 state := (acc.1.c (cacheline t inst)).state },
        memory := acc.1.memory } _
      (touched_put inst acc.1 _ _ _ (by rfl) hp) ?_
    refine touched_put inst _ _ _ _ ?_ hq
    simp only [put]
    split_ifs
    · rfl
    · exact h2
  unfold wr_snoop
  simp only []
  split_ifs with h1 h2 h3
  · exact h12 h2.2
  · exact h12 h2.2
  · exact touched_refl inst _
  · exact touched_refl inst _

theorem wr_snoop_fold_touched (t : Nat) (inst : decoded) (l : List Nat)
    (acc : machine × Bool) (hr : in_range inst) :
    touched inst acc.1 (l.foldl (wr_snoop t inst) acc).1 := by
  refine foldl_invariant (fun r => touched inst acc.1 r.1) (wr_snoop t inst) l acc
    (touched_refl inst _) ?_
  intro b i hb
  exact touched_trans inst _ _ _ hb (wr_snoop_touched t i inst b hr)

theorem wr_touched (n t : Nat) (inst : decoded) (m : machine) (hr : in_range inst)
    (hA : (m.c (cacheline t inst)).address = inst.address) :
    touched inst m (wr n t inst m) := by
  have hp := cacheline_slot t inst hr
  unfold wr
  simp only []
  refine touched_trans inst m _ _ ?_ (touched_put inst _ _ _ _ (by rfl) hp)
  split_ifs
  · exact touched_refl inst m
  · exact touched_put inst m _ _ _ hA hp
  · have h := wr_invalidate_fold_touched t inst (List.range n) m hr
    exact touched_trans inst _ _ _ h
      (touched_put inst _ _ _ _ (touched_address inst _ _ _ h hA) hp)
  · have h := wr_snoop_fold_touched t inst (List.range n) (m, false) hr
    exact touched_trans inst _ _ _ h
      (touched_trans inst _ _ _ (touched_put inst _ _ _ _ (by rfl) hp)
        (touched_put inst _ _ _ _ (by simp) hp))
  · have h := wr_snoop_fold_touched t inst (List.range n) (m, false) hr
    exact touched_trans inst _ _ _ h
      (touched_put inst _ _ _ _ (touched_address inst _ _ _ h hA) hp)
  · exact touched_refl inst m

theorem handle_miss_own_address (t : Nat) (inst : decoded) (m : machine) :
    ((handle_miss t inst m).c (cacheline t inst)).address = inst.address := by
  rw [handle_miss_own_line]
  split_ifs with h
  · rfl
  · push_neg at h
    exact h

/-- One step changes only lines at the slot of the address of its instruction, and
every line it changes ends with that address as tag. -/
theorem cpu_loop_body_touched (n t : Nat) (inst : decoded) (m : machine)
    (hr : in_range inst) : touched inst m (cpu_loop_body n t inst m).1 := by
  have h1 := handle_miss_touched t inst m hr
  have ha := handle_miss_own_address t inst m
  have hs := hash_slot inst hr
  unfold cpu_loop_body
  simp only []
  split_ifs
  · have h2 := touched_trans inst _ _ _ h1 (rd_touched n t inst (handle_miss t inst m) hr)
    exact touched_trans inst _ _ _ h2
      (touched_put inst _ _ _ _ (touched_address inst _ _ _ (rd_touched n t inst _ hr) ha) hs)
  · have h2 := touched_trans inst _ _ _ h1 (wr_touched n t inst (handle_miss t inst m) hr ha)
    exact touched_trans inst _ _ _ h2
      (touched_put inst _ _ _ _ (touched_address inst _ _ _ (wr_touched n t inst _ hr ha) ha) hs)
  · exact touched_trans inst _ _ _ h1 (touched_put inst _ _ _ _ ha hs)

theorem line_slot (j : Nat) (k : Int) (h0 : 0 ≤ k) (h1 : k < cache_size) :
    ((j : Int) * cache_size + k) % cache_size = k := by
  unfold cache_size at *
  omega

theorem tag_ok_step (n t : Nat) (inst : decoded) (m : machine) (hr : in_range inst)
    (h : ∀ x, tag_ok x (m.c x)) : ∀ x, tag_ok x ((cpu_loop_body n t inst m).1.c x) := by
  intro x
  rcases cpu_loop_body_touched n t inst m hr x with h1 | h1
  · rw [h1]
    exact h x
  · right
    rw [h1.1, h1.2]
    exact ⟨hr.1, hr.2, rfl⟩

theorem tag_ok_run (n : Nat) (sched : List (Nat × decoded)) (m : machine)
    (hwf : well_formed n sched) (h : ∀ x, tag_ok x (m.c x)) :
    ∀ x, tag_ok x ((run n sched m).c x) := by
  induction sched generalizing m with
  | nil => exact h
  | cons e rest ih =>
    obtain ⟨t, inst⟩ := e
    have he := hwf (t, inst) (List.mem_cons_self _ _)
    exact ih _ (fun e hmem => hwf e (List.mem_cons_of_mem _ hmem))
      (tag_ok_step n t inst m he.2 h)

/-! ## Which memory cells a step can change -/

theorem wr_snoop_not_source (t i : Nat) (inst : decoded) (acc : machine × Bool)
    (hs : ¬ is_source t inst acc.1 i) : wr_snoop t inst acc i = acc := by
  unfold wr_snoop
  unfold is_source at hs
  by_cases hi : i = t
  · simp [hi]
  · simp only [ne_eq, hi, not_false_eq_true, true_and] at hs
    simp [hi, hs]

/-- The snoop loop of a Write that meets no source changes nothing. -/
theorem wr_snoop_no_source (t : Nat) (inst : decoded) (m : machine) (k : Nat)
    (hno : ∀ i, i < k → ¬ is_source t inst m i) :
    (List.range k).foldl (wr_snoop t inst) (m, false) = (m, false) := by
  induction k with
  | zero => rfl
  | succ k ih =>
    rw [List.range_succ, List.foldl_append, ih (fun i hi => hno i (Nat.lt_succ_of_lt hi))]
    exact wr_snoop_not_source t k inst (m, false) (hno k (Nat.lt_succ_self k))

/-- A Read transition changes a memory cell only when the line is in state I and a
source is found, and then the cell is the address of the instruction. -/
theorem rd_memory_changed (n t : Nat) (inst : decoded) (m : machine) (T : Int)
    (h : (rd n t inst m).memory T ≠ m.memory T) :
    T = inst.address ∧ (m.c (cacheline t inst)).state = 'I' ∧
    ∃ i, i < n ∧ is_source t inst m i := by
  have h1 : T = inst.address := by
    by_contra hT
    exact h (rd_memory_frame n t inst m T hT)
  have h2 : (m.c (cacheline t inst)).state = 'I' := by
    by_contra hI
    apply h
    unfold rd
    simp [hI]
  refine ⟨h1, h2, ?_⟩
  by_contra hno
  push_neg at hno
  apply h
  rw [rd_no_source n t inst m h2 hno]

/-- A Write transition changes a memory cell only when the line is in state I and a
source is found, and then the cell is the address of the instruction. -/
theorem wr_memory_changed (n t : Nat) (inst : decoded) (m : machine) (T : Int)
    (h : (wr n t inst m).memory T ≠ m.memory T) :
    T = inst.address ∧ (m.c (cacheline t inst)).state = 'I' ∧
    ∃ i, i < n ∧ is_source t inst m i := by
  have h1 : T = inst.address := by
    by_contra hT
    exact h (wr_memory_frame n t inst m T hT)
  have h2 : (m.c (cacheline t inst)).state = 'I' := by
    by_contra hI
    apply h
    unfold wr
    simp only []
    split_ifs <;> simp [wr_invalidate_memory]
  refine ⟨h1, h2, ?_⟩
  by_contra hno
  push_neg at hno
  apply h
  unfold wr
  simp only [wr_snoop_no_source t inst m n hno]
  split_ifs <;> simp [wr_invalidate_memory]

/-- Every memory cell that a step changes is one of the subscripts of
`memory_indices`. -/
theorem memory_indices_cover (n t : Nat) (inst : decoded) (m : machine) (T : Int)
    (h : (cpu_loop_body n t inst m).1.memory T ≠ m.memory T) :
    T ∈ memory_indices t inst m := by
  unfold memory_indices
  rw [List.mem_append]
  by_cases hh : (handle_miss t inst m).memory T = m.memory T
  · right
    unfold cpu_loop_body at h
    simp only [] at h
    split_ifs at h with h0 h1
    · obtain ⟨hT, hI, -⟩ := rd_memory_changed n t inst _ T (fun e => h (e.trans hh))
      rw [if_pos ⟨Or.inl h0, hI⟩, hT]
      exact List.mem_singleton_self _
    · obtain ⟨hT, hI, -⟩ := wr_memory_changed n t inst _ T (fun e => h (e.trans hh))
      rw [if_pos ⟨Or.inr h1, hI⟩, hT]
      exact List.mem_singleton_self _
    · exact absurd hh h
  · left
    rw [handle_miss_memory] at hh
    by_cases hc : (m.c (cacheline t inst)).address ≠ inst.address ∧
        (m.c (cacheline t inst)).state = 'M' ∧ T = (m.c (cacheline t inst)).address
    · rw [if_pos ⟨hc.1, hc.2.1⟩, hc.2.2]
      exact List.mem_singleton_self _
    · rw [if_neg hc] at hh
      exact absurd rfl hh

/-! ## Claims -/

/-- C1. Mutual exclusion is stated of every reachable state; it fails in the state
reached from the initial store of two agents when agent 1 executes `WR 3 7`: line 218
copies the line of agent 1 over the line of agent 0, so both agents hold address 3 in
state M. -/
theorem C1_mutual_exclusion_fails :
    line (run 2 [(1, WR 3 7)] (init fun _ => 0)) 0 1 =
      { address := 3, value := 7, state := 'M' } ∧
    line (run 2 [(1, WR 3 7)] (init fun _ => 0)) 1 1 =
      { address := 3, value := 7, state := 'M' } ∧
    ¬ mutual_exclusion 2 (run 2 [(1, WR 3 7)] (init fun _ => 0)) := by
  refine ⟨by decide, by decide, fun h => ?_⟩
  have h1 := (h 3 (by decide) (by decide) 0 1 (by decide) (by decide) (by decide) 1 1
    (by decide) (by decide) (by decide) (by decide) (by decide) (by decide)).2 (by decide)
  exact absurd h1 (by decide)

/-- C2. Cross-agent propagation is stated of every reachable state; it fails in the state
reached when agent 1 of two has executed `WR 3 7`: agent 0 then executes `WR 3 9` and
agent 1 executes `RD 3`, whose read reports 7 (a hit on the stale Modified copy of agent
1); afterwards both lines are in state M and `memory[3]` is still -1. -/
theorem C2_cross_agent_propagation_fails :
    (cpu_loop_body 2 1 (RD 3) (run 2 [(1, WR 3 7), (0, WR 3 9)] (init fun _ => 0))).2 =
      some { thread_num := 1, type := 0, address := 3, value := 7 } ∧
    line (run 2 [(1, WR 3 7), (0, WR 3 9), (1, RD 3)] (init fun _ => 0)) 0 1 =
      { address := 3, value := 7, state := 'M' } ∧
    line (run 2 [(1, WR 3 7), (0, WR 3 9), (1, RD 3)] (init fun _ => 0)) 1 1 =
      { address := 3, value := 7, state := 'M' } ∧
    (run 2 [(1, WR 3 7), (0, WR 3 9), (1, RD 3)] (init fun _ => 0)).memory 3 = -1 := by
  decide

/-- The example of the specification for cross-agent propagation does hold: from the
initial store agent 0 executes `WR 3 7`, agent 1 executes `RD 3` and reads 7; both
lines finish in state S and `memory[3] = 7`. -/
theorem cross_agent_propagation_example :
    (cpu_loop_body 2 1 (RD 3) (run 2 [(0, WR 3 7)] (init fun _ => 0))).2 =
      some { thread_num := 1, type := 0, address := 3, value := 7 } ∧
    line (run 2 [(0, WR 3 7), (1, RD 3)] (init fun _ => 0)) 0 1 =
      { address := 3, value := 7, state := 'S' } ∧
    line (run 2 [(0, WR 3 7), (1, RD 3)] (init fun _ => 0)) 1 1 =
      { address := 3, value := 7, state := 'S' } ∧
    (run 2 [(0, WR 3 7), (1, RD 3)] (init fun _ => 0)).memory 3 = 7 := by
  decide

/-- C6. Repeated reads are not stable in the code: after agent 0 of two has executed
`WR 2 5`, agent 0 reads 5 at address 2; agent 1 then executes `RD 0` (no Write by any
agent), and line 218 copies the line of agent 1 over the Modified line of agent 0
without a write-back; the second `RD 2` of agent 0 reads -1. -/
theorem C6_repeated_read_changes :
    (cpu_loop_body 2 0 (RD 2) (run 2 [(0, WR 2 5)] (init fun _ => 0))).2 =
      some { thread_num := 0, type := 0, address := 2, value := 5 } ∧
    (cpu_loop_body 2 0 (RD 2)
        (run 2 [(0, WR 2 5), (0, RD 2), (1, RD 0)] (init fun _ => 0))).2 =
      some { thread_num := 0, type := 0, address := 2, value := -1 } := by
  decide

/-- C7. A Read hit changes a line of another agent in the code: after agent 1 of two has
executed `WR 3 7` and agent 0 has executed `RD 1`, the line of agent 1 at slot 1 is
`(3, 7, M)` and the line of agent 0 at slot 1 is `(1, -1, E)`; the hit `RD 3` of agent 1
then turns the line of agent 0 into `(3, 7, M)` (line 218). -/
theorem C7_read_hit_changes_other_line :
    line (run 2 [(1, WR 3 7), (0, RD 1)] (init fun _ => 0)) 1 (3 % cache_size) =
      { address := 3, value := 7, state := 'M' } ∧
    line (run 2 [(1, WR 3 7), (0, RD 1)] (init fun _ => 0)) 0 (3 % cache_size) =
      { address := 1, value := -1, state := 'E' } ∧
    line (cpu_loop_body 2 1 (RD 3) (run 2 [(1, WR 3 7), (0, RD 1)] (init fun _ => 0))).1 0
        (3 % cache_size) =
      { address := 3, value := 7, state := 'M' } := by
  decide

/-- C3. Write-then-read on one agent: for every state, agent `t`, in-range address `A`
and value `V`, when `t` executes `WR A V` and immediately afterwards `RD A`, the read
reports the value `V`. -/
theorem C3_write_then_read (n t : Nat) (A V : Int) (m : machine)
    (_ht : t < n) (_hA : 0 ≤ A ∧ A < memory_size) :
    (cpu_loop_body n t (RD A) (cpu_loop_body n t (WR A V) m).1).2 =
      some { thread_num := t, type := 0, address := A, value := V } := by
  obtain ⟨h1, h2, h3, -, -⟩ := wr_step_own_line n t A V m
  have hp : cacheline t (RD A) = cacheline t (WR A V) := rfl
  have hty : (RD A).type = 0 := rfl
  have ha : (RD A).address = A := rfl
  generalize (cpu_loop_body n t (WR A V) m).1 = m1 at h1 h2 h3
  unfold cpu_loop_body
  simp only [hty, if_true]
  have hm : handle_miss t (RD A) m1 = m1 := by
    unfold handle_miss
    simp [hp, ha, h1]
  have hr : rd n t (RD A) m1 = m1 := by
    unfold rd
    simp [hp, h3]
  simp [hm, hr, hp, h2, ha]

/-- C3 at a concrete input: two agents, the initial store, agent 1, `WR 3 7` then `RD 3`. -/
theorem C3_write_then_read_witness :
    (1 < 2 ∧ ((0 : Int) ≤ 3 ∧ (3 : Int) < memory_size)) ∧
    (cpu_loop_body 2 1 (RD 3) (cpu_loop_body 2 1 (WR 3 7) (init fun _ => 0)).1).2 =
      some { thread_num := 1, type := 0, address := 3, value := 7 } :=
  ⟨by decide, C3_write_then_read 2 1 3 7 (init fun _ => 0) (by decide) (by decide)⟩

/-- C10. Every Write ends Modified with the written value: for every state whose line
of agent `t` at slot `A mod cache_size` has a MESI state letter (tag matching or not),
after `t` executes `WR A V` with `A` in range that line has tag `A`, value `V` and
state M, and the record printed carries the value `V`. -/
theorem C10_write_ends_modified (n t : Nat) (A V : Int) (m : machine)
    (_ht : t < n) (hA : 0 ≤ A ∧ A < memory_size)
    (hst : is_mesi (line m t (A % cache_size)).state) :
    line (cpu_loop_body n t (WR A V) m).1 t (A % cache_size) =
      { address := A, value := V, state := 'M' } ∧
    (cpu_loop_body n t (WR A V) m).2 =
      some { thread_num := t, type := 1, address := A, value := V } := by
  have hr : in_range (WR A V) := hA
  obtain ⟨h1, h2, -, h4, h5⟩ := wr_step_own_line n t A V m
  rw [cacheline_eq_line _ _ _ hr] at h1 h2 h4
  rw [cacheline_eq_line _ _ _ hr] at h4
  have ha : (WR A V).address = A := rfl
  rw [ha] at h1 h2 h4
  refine ⟨?_, h5⟩
  have h6 := h4 hst
  generalize line (cpu_loop_body n t (WR A V) m).1 t (A % cache_size) = l at h1 h2 h6
  cases l
  simp_all

/-- C10 at a concrete input: agent 1 of two writes 7 to address 3 in the initial store. -/
theorem C10_write_ends_modified_witness :
    (1 < 2 ∧ ((0 : Int) ≤ 3 ∧ (3 : Int) < memory_size) ∧
      is_mesi (line (init fun _ => 0) 1 (3 % cache_size)).state) ∧
    (line (cpu_loop_body 2 1 (WR 3 7) (init fun _ => 0)).1 1 (3 % cache_size) =
      { address := 3, value := 7, state := 'M' } ∧
    (cpu_loop_body 2 1 (WR 3 7) (init fun _ => 0)).2 =
      some { thread_num := 1, type := 1, address := 3, value := 7 }) :=
  ⟨by decide, C10_write_ends_modified 2 1 3 7 (init fun _ => 0) (by decide) (by decide)
    (by decide)⟩

/-- C4. Eviction write-back: when the line of agent `t` at slot `A mod cache_size` is
`(T, v, st)` with `T` different from `A`, then after `t` executes a Read or a Write of
the in-range address `A`: if `st` is M (and `T` is a memory cell) `memory[T] = v`; if
`st` is not M `memory[T]` is unchanged; the slot carries tag `A`; and for a Write of
value `V` the slot holds `(A, V, M)`. -/
theorem C4_eviction_write_back (n t : Nat) (inst : decoded) (m : machine) (T v : Int)
    (st : Char) (_ht : t < n) (hr : in_range inst) (hrw : is_rw inst)
    (hold : line m t (inst.address % cache_size) = { address := T, value := v, state := st })
    (hT : T ≠ inst.address) :
    (st = 'M' → 0 ≤ T ∧ T < memory_size → (cpu_loop_body n t inst m).1.memory T = v) ∧
    (st ≠ 'M' → (cpu_loop_body n t inst m).1.memory T = m.memory T) ∧
    (line (cpu_loop_body n t inst m).1 t (inst.address % cache_size)).address
      = inst.address ∧
    (inst.type = 1 → line (cpu_loop_body n t inst m).1 t (inst.address % cache_size) =
      { address := inst.address, value := inst.value, state := 'M' }) := by
  rw [← cacheline_eq_line _ _ _ hr] at hold ⊢
  have hmiss : (handle_miss t inst m).c (cacheline t inst) =
      { address := inst.address, value := -1, state := 'I' } := by
    rw [handle_miss_own_line, hold]
    simp [hT]
  have hmem : (handle_miss t inst m).memory T = if st = 'M' then v else m.memory T := by
    rw [handle_miss_memory, hold]
    simp [hT]
  rcases hrw with h0 | h1
  · rw [cpu_loop_body_rd n t inst m h0]
    simp only [put_copy]
    rw [rd_memory_frame n t inst _ T hT, hmem]
    refine ⟨fun h _ => by simp [h], fun h => by simp [h], ?_, fun h => ?_⟩
    · exact rd_own_address n t inst _ (by rw [hmiss])
    · omega
  · rw [cpu_loop_body_wr n t inst m h1]
    simp only [put_copy]
    rw [wr_memory_frame n t inst _ T hT, hmem, wr_own_line, hmiss]
    refine ⟨fun h _ => by simp [h], fun h => by simp [h], rfl, fun _ => ?_⟩
    simp [is_mesi]

/-- C4 at the input of the specification: agent 0 executes `WR 0 9`, then `WR 2 4`;
the write-back gives `memory[0] = 9` and the slot holds `(2, 4, M)`. -/
theorem C4_eviction_write_back_witness :
    (0 < 2 ∧ in_range (WR 2 4) ∧ is_rw (WR 2 4) ∧
      line (run 2 [(0, WR 0 9)] (init fun _ => 0)) 0 ((WR 2 4).address % cache_size) =
        { address := 0, value := 9, state := 'M' } ∧ (0 : Int) ≠ (WR 2 4).address) ∧
    (run 2 [(0, WR 0 9), (0, WR 2 4)] (init fun _ => 0)).memory 0 = 9 ∧
    line (run 2 [(0, WR 0 9), (0, WR 2 4)] (init fun _ => 0)) 0 (2 % cache_size) =
      { address := 2, value := 4, state := 'M' } :=
  have h := C4_eviction_write_back 2 0 (WR 2 4) (run 2 [(0, WR 0 9)] (init fun _ => 0)) 0 9 'M'
    (by decide) (by decide) (by decide) (by decide) (by decide)
  ⟨by decide, h.1 rfl (by decide), h.2.2.2 rfl⟩

/-- C8. Read miss with a source: when the line of agent `t` for the in-range address
`A` has another tag or state I, and `i0` is the lowest-numbered other agent whose line at
slot `A mod cache_size` has tag `A` in a state other than I, then after `t` executes
`RD A` the line of `t` is `(A, value of the line of i0, S)`, `memory[A]` is that value,
and every other agent whose line had tag `A` in state M, E or S has it in state S. -/
theorem C8_read_miss_with_source (n t i0 : Nat) (A : Int) (m : machine)
    (_ht : t < n) (hA : 0 ≤ A ∧ A < memory_size)
    (hmiss : (line m t (A % cache_size)).address ≠ A ∨
      (line m t (A % cache_size)).state = 'I')
    (h0 : i0 < n) (h0t : i0 ≠ t)
    (hsrc : (line m i0 (A % cache_size)).address = A ∧
      (line m i0 (A % cache_size)).state ≠ 'I')
    (hmin : ∀ j, j < i0 → j ≠ t →
      ¬ ((line m j (A % cache_size)).address = A ∧ (line m j (A % cache_size)).state ≠ 'I')) :
    line (cpu_loop_body n t (RD A) m).1 t (A % cache_size) =
      { address := A, value := (line m i0 (A % cache_size)).value, state := 'S' } ∧
    (cpu_loop_body n t (RD A) m).1.memory A = (line m i0 (A % cache_size)).value ∧
    (∀ j, j < n → j ≠ t → (line m j (A % cache_size)).address = A →
      ((line m j (A % cache_size)).state = 'M' ∨ (line m j (A % cache_size)).state = 'E' ∨
        (line m j (A % cache_size)).state = 'S') →
      (line (cpu_loop_body n t (RD A) m).1 j (A % cache_size)).address = A ∧
      (line (cpu_loop_body n t (RD A) m).1 j (A % cache_size)).state = 'S') := by
  have hr : in_range (RD A) := hA
  have ha : (RD A).address = A := rfl
  have hl : ∀ (m1 : machine) (i : Nat), line m1 i (A % cache_size) = m1.c (cacheline i (RD A)) :=
    fun m1 i => (cacheline_eq_line m1 i (RD A) hr).symm
  simp only [hl] at hmiss hsrc hmin ⊢
  have hother : ∀ i, i ≠ t →
      (handle_miss t (RD A) m).c (cacheline i (RD A)) = m.c (cacheline i (RD A)) :=
    fun i hi => handle_miss_other_line t (RD A) m _ (cacheline_ne_other t i (RD A) hi).symm
  have hI := handle_miss_invalid t (RD A) m hmiss
  have hs : is_source t (RD A) (handle_miss t (RD A) m) i0 :=
    (is_source_handle_miss t i0 (RD A) m).mpr ⟨h0t, hsrc.2, hsrc.1⟩
  have hmin1 : ∀ j, j < i0 → ¬ is_source t (RD A) (handle_miss t (RD A) m) j :=
    fun j hj h => by
      have h1 := (is_source_handle_miss t j (RD A) m).mp h
      exact hmin j hj h1.1 ⟨h1.2.2, h1.2.1⟩
  obtain ⟨r1, r2, r3, -⟩ := rd_with_source n t i0 (RD A) (handle_miss t (RD A) m) hI h0 hs hmin1
  rw [hother i0 h0t, ha] at r1 r2
  rw [cpu_loop_body_rd n t (RD A) m rfl]
  simp only [put_copy]
  refine ⟨r1, ?_, ?_⟩
  · rw [r2]; simp
  · intro j hj hjt hadr hst
    unfold put
    split_ifs
    · rw [r1]; exact ⟨rfl, rfl⟩
    · rw [r3 j hj hjt, hother j hjt, ha]
      unfold downgrade
      split_ifs with hc
      · exact ⟨hadr, rfl⟩
      · refine ⟨hadr, ?_⟩
        rcases hst with h | h | h
        · exact absurd ⟨hadr, Or.inl h⟩ hc
        · exact absurd ⟨hadr, Or.inr h⟩ hc
        · exact h

/-- C8 at a concrete input: agent 0 of two has executed `WR 3 7`; agent 1 then executes
`RD 3`, agent 0 being the lowest-numbered source. -/
theorem C8_read_miss_with_source_witness :
    (1 < 2 ∧ ((0 : Int) ≤ 3 ∧ (3 : Int) < memory_size) ∧
      ((line (run 2 [(0, WR 3 7)] (init fun _ => 0)) 1 (3 % cache_size)).address ≠ 3 ∨
        (line (run 2 [(0, WR 3 7)] (init fun _ => 0)) 1 (3 % cache_size)).state = 'I') ∧
      0 < 2 ∧ 0 ≠ 1 ∧
      ((line (run 2 [(0, WR 3 7)] (init fun _ => 0)) 0 (3 % cache_size)).address = 3 ∧
        (line (run 2 [(0, WR 3 7)] (init fun _ => 0)) 0 (3 % cache_size)).state ≠ 'I')) ∧
    (line (cpu_loop_body 2 1 (RD 3) (run 2 [(0, WR 3 7)] (init fun _ => 0))).1 1
        (3 % cache_size) =
      { address := 3,
        value := (line (run 2 [(0, WR 3 7)] (init fun _ => 0)) 0 (3 % cache_size)).value,
        state := 'S' } ∧
    (cpu_loop_body 2 1 (RD 3) (run 2 [(0, WR 3 7)] (init fun _ => 0))).1.memory 3 =
      (line (run 2 [(0, WR 3 7)] (init fun _ => 0)) 0 (3 % cache_size)).value ∧
    (line (run 2 [(0, WR 3 7)] (init fun _ => 0)) 0 (3 % cache_size)).value = 7) :=
  have h := C8_read_miss_with_source 2 1 0 3 (run 2 [(0, WR 3 7)] (init fun _ => 0))
    (by decide) (by decide) (by decide) (by decide) (by decide) (by decide)
    (fun j hj => absurd hj (Nat.not_lt_zero j))
  ⟨by decide, h.1, h.2.1, by decide⟩

/-- C9. Read miss without a source: when the line of agent `t` for the in-range address
`A` has another tag or state I and no other agent's line at slot `A mod cache_size` has
tag `A` in a state other than I, then after `t` executes `RD A` the line of `t` is
`(A, memory[A], E)`, the read reports `memory[A]`, and `memory[A]` is unchanged. -/
theorem C9_read_miss_no_source (n t : Nat) (A : Int) (m : machine)
    (_ht : t < n) (hA : 0 ≤ A ∧ A < memory_size)
    (hmiss : (line m t (A % cache_size)).address ≠ A ∨
      (line m t (A % cache_size)).state = 'I')
    (hno : ∀ i, i < n → i ≠ t →
      ¬ ((line m i (A % cache_size)).address = A ∧ (line m i (A % cache_size)).state ≠ 'I')) :
    line (cpu_loop_body n t (RD A) m).1 t (A % cache_size) =
      { address := A, value := m.memory A, state := 'E' } ∧
    (cpu_loop_body n t (RD A) m).2 =
      some { thread_num := t, type := 0, address := A, value := m.memory A } ∧
    (cpu_loop_body n t (RD A) m).1.memory A = m.memory A := by
  have hr : in_range (RD A) := hA
  have ha : (RD A).address = A := rfl
  have hl : ∀ (m1 : machine) (i : Nat), line m1 i (A % cache_size) = m1.c (cacheline i (RD A)) :=
    fun m1 i => (cacheline_eq_line m1 i (RD A) hr).symm
  simp only [hl] at hmiss hno ⊢
  have hI := handle_miss_invalid t (RD A) m hmiss
  have hno1 : ∀ i, i < n → ¬ is_source t (RD A) (handle_miss t (RD A) m) i :=
    fun i hi h => by
      have h1 := (is_source_handle_miss t i (RD A) m).mp h
      exact hno i hi h1.1 ⟨h1.2.2, h1.2.1⟩
  have hm := handle_miss_memory_address t (RD A) m
  rw [ha] at hm
  rw [cpu_loop_body_rd n t (RD A) m rfl, rd_no_source n t (RD A) _ hI hno1]
  refine ⟨?_, ?_, ?_⟩
  · simp only [put]
    split_ifs <;> simp [ha, hm]
  · simp [ha, hm]
  · simp [ha, hm]

/-- C9 at a concrete input: agent 1 of two executes `RD 3` in the initial store. -/
theorem C9_read_miss_no_source_witness :
    (1 < 2 ∧ ((0 : Int) ≤ 3 ∧ (3 : Int) < memory_size) ∧
      ((line (init fun _ => 0) 1 (3 % cache_size)).address ≠ 3 ∨
        (line (init fun _ => 0) 1 (3 % cache_size)).state = 'I') ∧
      (∀ i, i < 2 → i ≠ 1 →
        ¬ ((line (init fun _ => 0) i (3 % cache_size)).address = 3 ∧
          (line (init fun _ => 0) i (3 % cache_size)).state ≠ 'I'))) ∧
    (line (cpu_loop_body 2 1 (RD 3) (init fun _ => 0)).1 1 (3 % cache_size) =
      { address := 3, value := (init fun _ => 0).memory 3, state := 'E' } ∧
    (cpu_loop_body 2 1 (RD 3) (init fun _ => 0)).2 =
      some { thread_num := 1, type := 0, address := 3, value := (init fun _ => 0).memory 3 } ∧
    (cpu_loop_body 2 1 (RD 3) (init fun _ => 0)).1.memory 3 = (init fun _ => 0).memory 3) :=
  ⟨by decide, C9_read_miss_no_source 2 1 3 (init fun _ => 0) (by decide) (by decide)
    (by decide) (by decide)⟩

/-- C5. Single-agent round trip: in a system of one agent that executes, from the
initial store, a finite sequence `prog` of Read and Write instructions with in-range
addresses, for every address `A` whose last Write in `prog` wrote `v`, the current value
of `A` (the value of the line when the slot of `A` holds tag `A` in state M, otherwise
`memory[A]`) is `v`; hence when no line is Modified any more, `memory[A] = v`. -/
theorem C5_single_agent_round_trip (g : Int → Int) (prog : List decoded) (A v : Int)
    (hprog : ∀ inst, inst ∈ prog → in_range inst ∧ is_rw inst)
    (hw : last_write prog A = some v) :
    current (run_single prog (init g)) A = v ∧
    ((∀ k, 0 ≤ k → k < cache_size → (line (run_single prog (init g)) 0 k).state ≠ 'M') →
      (run_single prog (init g)).memory A = v) := by
  have hinv := single_inv_run prog (init g) (fun _ => none) hprog (single_inv_init g)
  have hcur := hinv.2 A v hw
  refine ⟨hcur, fun hno => ?_⟩
  have hk := hno (A % cache_size) (Int.emod_nonneg A (by decide))
    (Int.emod_lt_of_pos A (by decide))
  unfold current at hcur
  rw [if_neg (fun hc => hk hc.2)] at hcur
  exact hcur

/-- C5 at a concrete input: the agent executes `WR 0 9`, `WR 2 4`, `RD 0`; the value last
written to address 0 is 9. -/
theorem C5_single_agent_round_trip_witness :
    ((∀ inst, inst ∈ [WR 0 9, WR 2 4, RD 0] → in_range inst ∧ is_rw inst) ∧
      last_write [WR 0 9, WR 2 4, RD 0] 0 = some 9) ∧
    (current (run_single [WR 0 9, WR 2 4, RD 0] (init fun _ => 0)) 0 = 9 ∧
    ((∀ k, 0 ≤ k → k < cache_size →
        (line (run_single [WR 0 9, WR 2 4, RD 0] (init fun _ => 0)) 0 k).state ≠ 'M') →
      (run_single [WR 0 9, WR 2 4, RD 0] (init fun _ => 0)).memory 0 = 9)) :=
  ⟨by decide, C5_single_agent_round_trip (fun _ => 0) [WR 0 9, WR 2 4, RD 0] 0 9
    (by decide) (by decide)⟩

/-- C16. Every step mirrors the line of the executing agent into the cache of agent 0:
after agent `t` executes a Read or Write of the in-range address `A`, the line of agent 0
at slot `A mod cache_size` equals the line of agent `t` at that slot. -/
theorem C16_step_mirrors_into_agent_zero (n t : Nat) (inst : decoded) (m : machine)
    (_ht : t < n) (hr : in_range inst) (_hrw : is_rw inst) :
    line (cpu_loop_body n t inst m).1 0 (inst.address % cache_size) =
      line (cpu_loop_body n t inst m).1 t (inst.address % cache_size) := by
  rw [← cacheline_eq_line _ _ _ hr, ← cacheline_eq_line _ _ _ hr, cacheline_zero]
  unfold cpu_loop_body
  simp only [put_same, put_copy]

/-- C16 at a concrete input: agent 1 of two executes `WR 3 7` in the initial store; the
lines of agents 0 and 1 at slot 1 are then both `(3, 7, M)`. -/
theorem C16_step_mirrors_into_agent_zero_witness :
    (1 < 2 ∧ in_range (WR 3 7) ∧ is_rw (WR 3 7)) ∧
    line (cpu_loop_body 2 1 (WR 3 7) (init fun _ => 0)).1 0 ((WR 3 7).address % cache_size) =
      line (cpu_loop_body 2 1 (WR 3 7) (init fun _ => 0)).1 1
        ((WR 3 7).address % cache_size) ∧
    line (cpu_loop_body 2 1 (WR 3 7) (init fun _ => 0)).1 0 1 =
      { address := 3, value := 7, state := 'M' } :=
  ⟨by decide, C16_step_mirrors_into_agent_zero 2 1 (WR 3 7) (init fun _ => 0) (by decide)
    (by decide) (by decide), by decide⟩

/-- C17. A step is confined to one slot and at most two memory cells: when agent `t`
executes an instruction with in-range address `A`, every line of every agent at a slot
other than `A mod cache_size` is unchanged, and every memory cell other than `A` and the
tag that the line of `t` at that slot had is unchanged. -/
theorem C17_step_confined (n t : Nat) (inst : decoded) (m : machine)
    (_ht : t < n) (hr : in_range inst) :
    (∀ (j : Nat) (k : Int), 0 ≤ k → k < cache_size → k ≠ inst.address % cache_size →
      line (cpu_loop_body n t inst m).1 j k = line m j k) ∧
    (∀ T, T ≠ inst.address → T ≠ (line m t (inst.address % cache_size)).address →
      (cpu_loop_body n t inst m).1.memory T = m.memory T) := by
  constructor
  · intro j k h0 h1 hk
    rcases cpu_loop_body_touched n t inst m hr ((j : Int) * cache_size + k) with h | h
    · exact h
    · rw [line_slot j k h0 h1] at h
      exact absurd h.2 hk
  · intro T hT hold
    rw [← cacheline_eq_line _ _ _ hr] at hold
    have hm : (handle_miss t inst m).memory T = m.memory T := by
      rw [handle_miss_memory]
      exact if_neg (fun hc => hold hc.2.2)
    unfold cpu_loop_body
    simp only []
    split_ifs
    · exact (rd_memory_frame n t inst _ T hT).trans hm
    · exact (wr_memory_frame n t inst _ T hT).trans hm
    · exact hm

/-- C17 at a concrete input: agent 0 of two, holding `(0, 9, M)` at slot 0, executes
`WR 2 4`; the lines at slot 1 and the memory cells other than 2 and 0 are unchanged. -/
theorem C17_step_confined_witness :
    (0 < 2 ∧ in_range (WR 2 4)) ∧
    ((∀ (j : Nat) (k : Int), 0 ≤ k → k < cache_size → k ≠ (WR 2 4).address % cache_size →
      line (cpu_loop_body 2 0 (WR 2 4) (run 2 [(0, WR 0 9)] (init fun _ => 0))).1 j k =
        line (run 2 [(0, WR 0 9)] (init fun _ => 0)) j k) ∧
    (∀ T, T ≠ (WR 2 4).address →
      T ≠ (line (run 2 [(0, WR 0 9)] (init fun _ => 0)) 0
        ((WR 2 4).address % cache_size)).address →
      (cpu_loop_body 2 0 (WR 2 4) (run 2 [(0, WR 0 9)] (init fun _ => 0))).1.memory T =
        (run 2 [(0, WR 0 9)] (init fun _ => 0)).memory T)) :=
  ⟨by decide, C17_step_confined 2 0 (WR 2 4) (run 2 [(0, WR 0 9)] (init fun _ => 0))
    (by decide) (by decide)⟩

/-- C18. Tags stay consistent with the direct mapping: in every state reached from the
initial store by steps of agents of the system on in-range addresses, every line at slot
`s` is empty (tag -1, state I) or has a tag `T` with `0 <= T < memory_size` and
`T mod cache_size = s`; so a copy of an in-range address `A` is only ever held at slot
`A mod cache_size`, and a Modified line has its tag inside memory. -/
theorem C18_tags_consistent (n : Nat) (g : Int → Int) (sched : List (Nat × decoded))
    (hwf : well_formed n sched) :
    (∀ (j : Nat) (s : Int), 0 ≤ s → s < cache_size →
      ((line (run n sched (init g)) j s).address = -1 ∧
        (line (run n sched (init g)) j s).state = 'I') ∨
      (0 ≤ (line (run n sched (init g)) j s).address ∧
        (line (run n sched (init g)) j s).address < memory_size ∧
        (line (run n sched (init g)) j s).address % cache_size = s)) ∧
    (∀ (j : Nat) (s A : Int), 0 ≤ s → s < cache_size → 0 ≤ A → A < memory_size →
      (line (run n sched (init g)) j s).address = A → s = A % cache_size) ∧
    (∀ (j : Nat) (s : Int), 0 ≤ s → s < cache_size →
      (line (run n sched (init g)) j s).state = 'M' →
      0 ≤ (line (run n sched (init g)) j s).address ∧
        (line (run n sched (init g)) j s).address < memory_size) := by
  have h0 : ∀ x, tag_ok x ((init g).c x) := fun x => Or.inl ⟨rfl, rfl⟩
  have h := tag_ok_run n sched (init g) hwf h0
  have hl : ∀ (j : Nat) (s : Int), 0 ≤ s → s < cache_size →
      ((line (run n sched (init g)) j s).address = -1 ∧
        (line (run n sched (init g)) j s).state = 'I') ∨
      (0 ≤ (line (run n sched (init g)) j s).address ∧
        (line (run n sched (init g)) j s).address < memory_size ∧
        (line (run n sched (init g)) j s).address % cache_size = s) := by
    intro j s hs0 hs1
    have hx := h ((j : Int) * cache_size + s)
    unfold tag_ok at hx
    rw [line_slot j s hs0 hs1] at hx
    exact hx
  refine ⟨hl, ?_, ?_⟩
  · intro j s A hs0 hs1 hA0 _ hadr
    rcases hl j s hs0 hs1 with h1 | h1
    · rw [hadr] at h1
      omega
    · rw [hadr] at h1
      exact h1.2.2.symm
  · intro j s hs0 hs1 hM
    rcases hl j s hs0 hs1 with h1 | h1
    · rw [hM] at h1
      exact absurd h1.2 (by decide)
    · exact ⟨h1.1, h1.2.1⟩

/-- C18 at a concrete input: two agents, agent 1 executes `WR 3 7`, then agent 0
executes `RD 1`. -/
theorem C18_tags_consistent_witness :
    well_formed 2 [(1, WR 3 7), (0, RD 1)] ∧
    (∀ (j : Nat) (s : Int), 0 ≤ s → s < cache_size →
      ((line (run 2 [(1, WR 3 7), (0, RD 1)] (init fun _ => 0)) j s).address = -1 ∧
        (line (run 2 [(1, WR 3 7), (0, RD 1)] (init fun _ => 0)) j s).state = 'I') ∨
      (0 ≤ (line (run 2 [(1, WR 3 7), (0, RD 1)] (init fun _ => 0)) j s).address ∧
        (line (run 2 [(1, WR 3 7), (0, RD 1)] (init fun _ => 0)) j s).address < memory_size ∧
        (line (run 2 [(1, WR 3 7), (0, RD 1)] (init fun _ => 0)) j s).address
          % cache_size = s)) :=
  ⟨by decide, (C18_tags_consistent 2 (fun _ => 0) [(1, WR 3 7), (0, RD 1)] (by decide)).1⟩

/-- C11. A Write miss leaves a sibling copy in the code: agent 1 of two executes
`WR 3 7` in the initial store (its line holds another tag); afterwards the line of agent
0 at slot 1 is `(3, 7, M)`, a line with tag 3 in a state other than I (line 218). -/
theorem C11_write_leaves_sibling_copy :
    (line (init fun _ => 0) 1 (3 % cache_size)).address ≠ 3 ∧
    line (cpu_loop_body 2 1 (WR 3 7) (init fun _ => 0)).1 0 (3 % cache_size) =
      { address := 3, value := 7, state := 'M' } ∧
    (line (cpu_loop_body 2 1 (WR 3 7) (init fun _ => 0)).1 0 (3 % cache_size)).state ≠ 'I' := by
  decide

/-- C12 as stated fails: after agent 0 of two has executed `WR 3 7`, agent 1 executes
`WR 3 9`; the line of agent 1 at slot 1 is not Modified (no eviction write-back), the
instruction is a Write, and `memory[3]` changes from -1 to 7 (line 194). -/
theorem C12_write_miss_writes_memory :
    (WR 3 9).type = 1 ∧
    (line (run 2 [(0, WR 3 7)] (init fun _ => 0)) 1 (3 % cache_size)).state = 'I' ∧
    (run 2 [(0, WR 3 7)] (init fun _ => 0)).memory 3 = -1 ∧
    (cpu_loop_body 2 1 (WR 3 9) (run 2 [(0, WR 3 7)] (init fun _ => 0))).1.memory 3 = 7 := by
  decide

/-- C12, amended. When a step of agent `t` on a Read or Write of the in-range address
`A` changes a memory cell, either (a) the line of `t` at slot `A mod cache_size` held
another tag in state M and the cell is that tag, or (b) the instruction missed (the line
held another tag or was in state I), another agent holds `A` at that slot in a state
other than I, and the cell is `A`. A hit (tag `A`, state other than I) changes no memory
cell. -/
theorem C12_memory_writers (n t : Nat) (inst : decoded) (m : machine)
    (_ht : t < n) (hr : in_range inst) (_hrw : is_rw inst) :
    (∀ T, (cpu_loop_body n t inst m).1.memory T ≠ m.memory T →
      ((line m t (inst.address % cache_size)).address ≠ inst.address ∧
        (line m t (inst.address % cache_size)).state = 'M' ∧
        T = (line m t (inst.address % cache_size)).address) ∨
      (T = inst.address ∧
        ((line m t (inst.address % cache_size)).address ≠ inst.address ∨
          (line m t (inst.address % cache_size)).state = 'I') ∧
        ∃ i, i < n ∧ i ≠ t ∧ (line m i (inst.address % cache_size)).address = inst.address ∧
          (line m i (inst.address % cache_size)).state ≠ 'I')) ∧
    ((line m t (inst.address % cache_size)).address = inst.address →
      (line m t (inst.address % cache_size)).state ≠ 'I' →
      ∀ T, (cpu_loop_body n t inst m).1.memory T = m.memory T) := by
  have hl : ∀ (m1 : machine) (i : Nat),
      line m1 i (inst.address % cache_size) = m1.c (cacheline i inst) :=
    fun m1 i => (cacheline_eq_line m1 i inst hr).symm
  simp only [hl]
  have hmissed : ((handle_miss t inst m).c (cacheline t inst)).state = 'I' →
      (m.c (cacheline t inst)).address ≠ inst.address ∨
        (m.c (cacheline t inst)).state = 'I' := by
    intro hI
    rw [handle_miss_own_line] at hI
    by_cases hadr : (m.c (cacheline t inst)).address ≠ inst.address
    · exact Or.inl hadr
    · rw [if_neg hadr] at hI
      exact Or.inr hI
  have hsnoop : ∀ T, T = inst.address ∧
      ((handle_miss t inst m).c (cacheline t inst)).state = 'I' ∧
      (∃ i, i < n ∧ is_source t inst (handle_miss t inst m) i) →
      (T = inst.address ∧
        ((m.c (cacheline t inst)).address ≠ inst.address ∨
          (m.c (cacheline t inst)).state = 'I') ∧
        ∃ i, i < n ∧ i ≠ t ∧ (m.c (cacheline i inst)).address = inst.address ∧
          (m.c (cacheline i inst)).state ≠ 'I') := by
    rintro T ⟨hT, hI, i, hi, hs⟩
    have hs1 := (is_source_handle_miss t i inst m).mp hs
    exact ⟨hT, hmissed hI, i, hi, hs1.1, hs1.2.2, hs1.2.1⟩
  have hmain : ∀ T, (cpu_loop_body n t inst m).1.memory T ≠ m.memory T →
      ((m.c (cacheline t inst)).address ≠ inst.address ∧
        (m.c (cacheline t inst)).state = 'M' ∧ T = (m.c (cacheline t inst)).address) ∨
      (T = inst.address ∧
        ((m.c (cacheline t inst)).address ≠ inst.address ∨
          (m.c (cacheline t inst)).state = 'I') ∧
        ∃ i, i < n ∧ i ≠ t ∧ (m.c (cacheline i inst)).address = inst.address ∧
          (m.c (cacheline i inst)).state ≠ 'I') := by
    intro T hch
    by_cases hh : (handle_miss t inst m).memory T = m.memory T
    · right
      apply hsnoop
      unfold cpu_loop_body at hch
      simp only [] at hch
      split_ifs at hch
      · exact rd_memory_changed n t inst _ T (fun h => hch (h.trans hh))
      · exact wr_memory_changed n t inst _ T (fun h => hch (h.trans hh))
      · exact absurd hh hch
    · left
      rw [handle_miss_memory] at hh
      by_cases hc : (m.c (cacheline t inst)).address ≠ inst.address ∧
          (m.c (cacheline t inst)).state = 'M' ∧ T = (m.c (cacheline t inst)).address
      · exact hc
      · rw [if_neg hc] at hh
        exact absurd rfl hh
  refine ⟨hmain, fun hadr hst T => ?_⟩
  by_contra hne
  rcases hmain T hne with h | h
  · exact h.1 hadr
  · rcases h.2.1 with h1 | h1
    · exact h1 hadr
    · exact hst h1

/-- C12 (amended) at a concrete input: after agent 0 of two has executed `WR 3 7`, agent 1
executes `WR 3 9` and `memory[3]` changes. -/
theorem C12_memory_writers_witness :
    (1 < 2 ∧ in_range (WR 3 9) ∧ is_rw (WR 3 9) ∧
      (cpu_loop_body 2 1 (WR 3 9) (run 2 [(0, WR 3 7)] (init fun _ => 0))).1.memory 3 ≠
        (run 2 [(0, WR 3 7)] (init fun _ => 0)).memory 3) ∧
    (((line (run 2 [(0, WR 3 7)] (init fun _ => 0)) 1
          ((WR 3 9).address % cache_size)).address ≠ (WR 3 9).address ∧
        (line (run 2 [(0, WR 3 7)] (init fun _ => 0)) 1
          ((WR 3 9).address % cache_size)).state = 'M' ∧
        3 = (line (run 2 [(0, WR 3 7)] (init fun _ => 0)) 1
          ((WR 3 9).address % cache_size)).address) ∨
      (3 = (WR 3 9).address ∧
        ((line (run 2 [(0, WR 3 7)] (init fun _ => 0)) 1
            ((WR 3 9).address % cache_size)).address ≠ (WR 3 9).address ∨
          (line (run 2 [(0, WR 3 7)] (init fun _ => 0)) 1
            ((WR 3 9).address % cache_size)).state = 'I') ∧
        ∃ i, i < 2 ∧ i ≠ 1 ∧
          (line (run 2 [(0, WR 3 7)] (init fun _ => 0)) i
            ((WR 3 9).address % cache_size)).address = (WR 3 9).address ∧
          (line (run 2 [(0, WR 3 7)] (init fun _ => 0)) i
            ((WR 3 9).address % cache_size)).state ≠ 'I')) :=
  ⟨by decide,
    (C12_memory_writers 2 1 (WR 3 9) (run 2 [(0, WR 3 7)] (init fun _ => 0)) (by decide)
      (by decide) (by decide)).1 3 (by decide)⟩

/-- C14 as stated fails: a line whose opcode is `NOP` decodes to the uninitialised `inst`,
here type 2 and address 3; agent 0 of two executes it in the initial store, and the miss
handling resets its line at slot 1 from `(-1, 0, I)` to `(3, -1, I)`. -/
theorem C14_unrecognized_not_skipped :
    decode_inst_line "NOP" 0 0 { type := 2, address := 3, value := 0 } =
      { type := 2, address := 3, value := 0 } ∧
    ¬ is_rw { type := 2, address := 3, value := 0 } ∧
    line (init fun _ => 0) 0 (3 % cache_size) = { address := -1, value := 0, state := 'I' } ∧
    line (cpu_loop_body 2 0 (decode_inst_line "NOP" 0 0 { type := 2, address := 3, value := 0 })
        (init fun _ => 0)).1 0 (3 % cache_size) =
      { address := 3, value := -1, state := 'I' } := by
  decide

/-- C14, amended. When the decoded instruction is neither a Read nor a Write and its
address `A` is a memory cell, executing it prints no record and makes no MESI transition,
but the miss handling still runs: the line of agent `t` at slot `A mod cache_size` is
reset to `(A, -1, I)` when it held another tag and is unchanged otherwise; the only
memory cell that can change is the tag of that line, written back when it was Modified;
every line other than that one and the line of agent 0 at that slot is unchanged. -/
theorem C14_unrecognized_instruction (n t : Nat) (inst : decoded) (m : machine)
    (_ht : t < n) (hr : in_range inst) (hty : ¬ is_rw inst) :
    (cpu_loop_body n t inst m).2 = none ∧
    line (cpu_loop_body n t inst m).1 t (inst.address % cache_size) =
      (if (line m t (inst.address % cache_size)).address ≠ inst.address then
        { address := inst.address, value := -1, state := 'I' }
       else line m t (inst.address % cache_size)) ∧
    (∀ T, (cpu_loop_body n t inst m).1.memory T =
      if (line m t (inst.address % cache_size)).address ≠ inst.address ∧
          (line m t (inst.address % cache_size)).state = 'M' ∧
          T = (line m t (inst.address % cache_size)).address
      then (line m t (inst.address % cache_size)).value else m.memory T) ∧
    (∀ (j : Nat) (k : Int), 0 ≤ k → k < cache_size →
      ¬ (j = t ∧ k = inst.address % cache_size) →
      ¬ (j = 0 ∧ k = inst.address % cache_size) →
      line (cpu_loop_body n t inst m).1 j k = line m j k) := by
  have h0 : inst.type ≠ 0 := fun h => hty (Or.inl h)
  have h1 : inst.type ≠ 1 := fun h => hty (Or.inr h)
  have hh := hash_of_in_range inst hr
  obtain ⟨hb0, hb1⟩ := hash_bounds inst hr
  have hstep : cpu_loop_body n t inst m =
      ({ c := put (handle_miss t inst m).c (hash inst)
                ((handle_miss t inst m).c (cacheline t inst)),
         memory := (handle_miss t inst m).memory }, none) := by
    unfold cpu_loop_body
    simp [h0, h1]
  rw [hstep, ← cacheline_eq_line _ _ _ hr, ← cacheline_eq_line _ _ _ hr]
  refine ⟨rfl, ?_, fun T => handle_miss_memory t inst m T, ?_⟩
  · simp only [put_copy]
    exact handle_miss_own_line t inst m
  · intro j k hk0 hk1 hjt hj0
    unfold line
    have hx1 : (j : Int) * cache_size + k ≠ hash inst := by
      intro hx
      apply hj0
      rw [← hh]
      unfold cache_size at *
      omega
    have hx2 : (j : Int) * cache_size + k ≠ cacheline t inst := by
      intro hx
      apply hjt
      rw [← hh]
      unfold cacheline cache_size at *
      omega
    simp only [put_other _ _ _ _ hx1]
    exact handle_miss_other_line t inst m _ hx2

/-- C14 (amended) at a concrete input: agent 1 of two executes the decoded instruction
of type 2 and address 3 in the initial store. -/
theorem C14_unrecognized_instruction_witness :
    (1 < 2 ∧ in_range { type := 2, address := 3, value := 0 } ∧
      ¬ is_rw { type := 2, address := 3, value := 0 }) ∧
    (cpu_loop_body 2 1 { type := 2, address := 3, value := 0 } (init fun _ => 0)).2 = none ∧
    line (cpu_loop_body 2 1 { type := 2, address := 3, value := 0 } (init fun _ => 0)).1 1
        (3 % cache_size) = { address := 3, value := -1, state := 'I' } :=
  have h := C14_unrecognized_instruction 2 1 { type := 2, address := 3, value := 0 }
    (init fun _ => 0) (by decide) (by decide) (by decide)
  ⟨by decide, h.1, by decide⟩

end CacheSim
